import Mathlib

/-!
# GoBlockchain: block construction, difficulty policy, block codec, stores

A shallow embedding of `blockchain/block.go`, with the proof-of-work scheme and
the two persistence stores, whose code is not among the sources, modelled from
the specification.

Conventions of the embedding

* Go `int`, `int64` and `uint` are 64-bit machine integers.  They are modelled
  by `Int` and `Nat` and every arithmetic operation of the source is followed
  by an explicit wrap (`wrapInt`, `wrapUint`).
* A Go `[]byte` is either `nil` or a non-nil slice holding a list of bytes:
  `ByteSlice`.
* A `*Block` argument is `Option Block` (`none` is the nil pointer).  A nil
  dereference is the `Exec.panic` outcome.
* A Go result pair `(*Block, error)` is a pair of options.
* `time.Now().Unix()` is an explicit argument, one per reading of the clock.
-/

namespace Blockchain

/-! ## Machine integers -/

/-- Two's complement wrap of an integer into the range of a Go `int`/`int64`. -/
def wrapInt (i : Int) : Int := (i + 2 ^ 63) % 2 ^ 64 - 2 ^ 63

/-- Wrap of an integer into the range of a Go `uint` (64 bits). -/
def wrapUint (i : Int) : Nat := (i % 2 ^ 64).toNat

/-- The values a Go `int`/`int64` can hold. -/
def inInt (i : Int) : Prop := -(2 ^ 63) ≤ i ∧ i < 2 ^ 63

/-- The values a Go `uint` can hold. -/
def inUint (n : Nat) : Prop := n < 2 ^ 64

instance (i : Int) : Decidable (inInt i) := by unfold inInt; infer_instance

instance (n : Nat) : Decidable (inUint n) := by unfold inUint; infer_instance

/-- Big-endian value of a byte string (`x = x<<8 | b` over the bytes); it is
also how a digest is "interpreted as a big unsigned integer". -/
def bytesToNat (bs : List Nat) : Nat := bs.foldl (fun acc b => acc * 256 + b) 0

/-! ## Data model -/

/-- A Go `[]byte`: the nil slice, or a non-nil slice with its bytes. -/
inductive ByteSlice where
  | nil : ByteSlice
  | mk (bytes : List Nat) : ByteSlice
deriving DecidableEq, Repr

/-- The bytes held by a slice; the nil slice holds none. -/
def ByteSlice.toList : ByteSlice → List Nat
  | .nil => []
  | .mk bs => bs

/-- Go `len(s)`. -/
def ByteSlice.len (s : ByteSlice) : Nat := s.toList.length

/-- A Go `error` value (non-nil). -/
structure GoError where
  msg : String
deriving DecidableEq, Repr

/-- Outcome of running a Go function: it returns a value or aborts by panic. -/
inductive Exec (α : Type) where
  | done (a : α) : Exec α
  | panic : Exec α
deriving DecidableEq, Repr

/-- The `Block` struct of `block.go`. -/
structure Block where
  Timestamp : Int
  Data : ByteSlice
  PreviousBlockHash : ByteSlice
  Hash : ByteSlice
  TargetBits : Nat
  Nonce : Nat
  Height : Int
deriving DecidableEq, Repr

/-- A block whose integer fields are in the range of their Go types and whose
slices hold bytes. -/
def Block.wf (b : Block) : Prop :=
  inInt b.Timestamp ∧ inUint b.TargetBits ∧ inUint b.Nonce ∧ inInt b.Height ∧
  (∀ x ∈ b.Data.toList, x < 256) ∧ (∀ x ∈ b.PreviousBlockHash.toList, x < 256) ∧
  (∀ x ∈ b.Hash.toList, x < 256)

instance (b : Block) : Decidable b.wf := by unfold Block.wf; infer_instance

/-- How often a block should be created (in sec). -/
def blockGenerationInterval : Int := 10

/-- How often the difficulty should be adjusted (in blocks). -/
def difficultyAdjustmentInterval : Int := 5

/-- The result of `NewProofOfWork(block).DoWork()`: `(nonce, hash, err)`.
The proof-of-work file is not part of the sources at hand, so the constructors
take the mining step as an argument: a function of the block it is given,
which returns and leaves that block untouched. -/
abbrev Miner := Block → Nat × ByteSlice × Option GoError

/-! ## Difficulty policy -/

/-- `getAdjustedDifficulty`: `now` is the reading of `time.Now().Unix()`. -/
def getAdjustedDifficulty (now : Int) (lastBlock : Block) : Nat :=
  let timediff := wrapInt (lastBlock.Timestamp - now)
  if timediff > blockGenerationInterval then
    wrapUint ((lastBlock.TargetBits : Int) - 8)
  else if timediff < blockGenerationInterval then
    wrapUint ((lastBlock.TargetBits : Int) + 8)
  else
    lastBlock.TargetBits

/-- `getDifficulty`: dereferencing a nil `lastBlock` panics. -/
def getDifficulty (now : Int) (lastBlock : Option Block) : Exec Nat :=
  match lastBlock with
  | none => .panic
  | some lb =>
    if Int.tmod lb.Height difficultyAdjustmentInterval = 0 ∧ lb.Height ≠ 0 then
      .done (getAdjustedDifficulty now lb)
    else
      .done lb.TargetBits

/-! ## Block construction -/

/-- The block literal built by `NewBlock` before mining. -/
def newBlockLiteral (now : Int) (data : ByteSlice) (difficulty : Nat)
    (previousBlock : Block) : Block :=
  { Timestamp := now
    Data := data
    PreviousBlockHash := previousBlock.Hash
    Hash := .mk []
    TargetBits := difficulty
    Nonce := 0
    Height := wrapInt (previousBlock.Height + 1) }

/-- The tail shared by `NewBlock` and `NewGenesisBlock`: mine the block, return
`(nil, err)` on a mining error, otherwise store hash and nonce and return the
block. -/
def mineAndSeal (doWork : Miner) (block : Block) : Option Block × Option GoError :=
  match doWork block with
  | (_, _, some err) => (none, some err)
  | (nonce, hash, none) => (some { block with Hash := hash, Nonce := nonce }, none)

/-- `NewBlock`: `nowAdj` is the clock reading taken inside
`getAdjustedDifficulty` (when it runs), `nowStamp` the later reading stored in
`Timestamp`. -/
def NewBlock (doWork : Miner) (nowAdj nowStamp : Int) (data : ByteSlice)
    (previousBlock : Option Block) : Exec (Option Block × Option GoError) :=
  match getDifficulty nowAdj previousBlock with
  | .panic => .panic
  | .done difficulty =>
    match previousBlock with
    | none => .panic
    | some prev => .done (mineAndSeal doWork (newBlockLiteral nowStamp data difficulty prev))

/-- The block literal built by `NewGenesisBlock` before mining. -/
def genesisLiteral (now : Int) (data : ByteSlice) : Block :=
  { Timestamp := now
    Data := data
    PreviousBlockHash := .mk []
    Hash := .mk []
    TargetBits := 8
    Nonce := 0
    Height := 0 }

/-- `NewGenesisBlock`. -/
def NewGenesisBlock (doWork : Miner) (now : Int) (data : ByteSlice) :
    Option Block × Option GoError :=
  mineAndSeal doWork (genesisLiteral now data)

/-! ## Chains -/

/-- One call of a constructor: the mining step in force, the clock readings
(`nowAdj` inside `getAdjustedDifficulty`, `nowStamp` for the timestamp) and the
payload.  `NewGenesisBlock` reads the clock once, as `nowStamp`. -/
structure Call where
  doWork : Miner
  nowAdj : Int
  nowStamp : Int
  data : ByteSlice

/-- Successive successful `NewBlock` calls, each on the block returned by the
call before it (`prev` for the first); `none` when a call fails. -/
def extendChain : Block → List Call → Option (List Block)
  | _, [] => some []
  | prev, c :: cs =>
    match NewBlock c.doWork c.nowAdj c.nowStamp c.data (some prev) with
    | .done (some b, none) =>
      match extendChain b cs with
      | some bs => some (b :: bs)
      | none => none
    | _ => none

/-- A chain: one successful `NewGenesisBlock` followed by successive successful
`NewBlock` calls. -/
def buildChain (genesis : Call) (calls : List Call) : Option (List Block) :=
  match NewGenesisBlock genesis.doWork genesis.nowStamp genesis.data with
  | (some g, none) =>
    match extendChain g calls with
    | some bs => some (g :: bs)
    | none => none
  | _ => none

/-! ## Block codec

`Serialize` and `DeserializeBlock` hand the block to the standard library
package `encoding/gob`.  The definitions below model the gob stream that this
package writes and reads for the `Block` type, after the wire format described
in the package documentation:

* an unsigned integer below 128 is one byte; otherwise it is the negated byte
  count followed by the significant bytes, big-endian;
* a signed integer is an unsigned integer whose low bit says whether to
  complement the rest;
* a byte slice is its length followed by its bytes;
* a struct is a sequence of (field delta, value) pairs closed by a zero delta,
  and a field holding the zero value of its type is not transmitted;
* every message is preceded by its length, and a type is described (in a
  message with the negated type id) before its first value.
-/

/-- Sanity limit on message and slice sizes of the gob package on a 64-bit
platform (`tooBig`, 8 GB). -/
def tooBig : Nat := 2 ^ 33

/-- The `count` low-order bytes of `n`, most significant first. -/
def bigEndianBytes : Nat → Nat → List Nat
  | 0, _ => []
  | count + 1, n => bigEndianBytes count (n / 256) ++ [n % 256]

/-- Number of significant bytes of `n`, at most `width`
(`8 - LeadingZeros64(x)>>3` for `width = 8`). -/
def sigBytes : Nat → Nat → Nat
  | 0, _ => 0
  | width + 1, n => if n = 0 then 0 else sigBytes width (n / 256) + 1

/-- Gob `encodeUint`. -/
def encodeUint (n : Nat) : List Nat :=
  if n ≤ 0x7f then [n]
  else (256 - sigBytes 8 n) :: bigEndianBytes (sigBytes 8 n) n

/-- Gob `encodeInt`: `uint64(^i<<1) | 1` for a negative `i`, `uint64(i<<1)`
otherwise. -/
def encodeInt (i : Int) : List Nat :=
  if i < 0 then encodeUint (wrapUint (2 * (-i - 1)) + 1)
  else encodeUint (wrapUint (2 * i))

/-- Result of reading a value off the front of a buffer. -/
abbrev Parse (α : Type) := Except GoError (α × List Nat)

/-- Gob `decodeUint`. -/
def decodeUint : List Nat → Parse Nat
  | [] => .error ⟨"EOF"⟩
  | b :: rest =>
    if b ≤ 0x7f then .ok (b, rest)
    else if 256 - b > 8 then .error ⟨"gob: encoded unsigned integer out of range"⟩
    else if 256 - b > rest.length then .error ⟨"invalid uint data length"⟩
    else .ok (bytesToNat (rest.take (256 - b)), rest.drop (256 - b))

/-- Gob `decodeInt`: `^int64(x>>1)` when the low bit is set, `int64(x>>1)`
otherwise. -/
def decodeInt (bs : List Nat) : Parse Int :=
  match decodeUint bs with
  | .error e => .error e
  | .ok (x, rest) =>
    if x % 2 = 1 then .ok (-((x / 2 : Nat) : Int) - 1, rest)
    else .ok (((x / 2 : Nat) : Int), rest)

/-- Gob `decUint8Slice` into a field that is still nil: the length is checked
against the buffer and against `tooBig`; a length of zero leaves the field
nil. -/
def decodeByteSlice (bs : List Nat) : Parse ByteSlice :=
  match decodeUint bs with
  | .error e => .error e
  | .ok (n, rest) =>
    if rest.length < n ∨ tooBig ≤ n then .error ⟨"bad []uint8 slice length"⟩
    else if n = 0 then .ok (.nil, rest)
    else .ok (.mk (rest.take n), rest.drop n)

/-- The value of one struct field as gob sees it. -/
inductive FieldValue where
  | int (i : Int) : FieldValue
  | uint (n : Nat) : FieldValue
  | bytes (s : ByteSlice) : FieldValue
deriving DecidableEq, Repr

/-- The seven fields of a block in declaration order. -/
def Block.fields (b : Block) : List FieldValue :=
  [.int b.Timestamp, .bytes b.Data, .bytes b.PreviousBlockHash, .bytes b.Hash,
    .uint b.TargetBits, .uint b.Nonce, .int b.Height]

/-- A field is left out of the transmission when it holds the zero value of
its type: `value != 0` in `encInt`/`encUint`, `len(b) > 0` in
`encUint8Array`. -/
def FieldValue.isZero : FieldValue → Bool
  | .int i => decide (i = 0)
  | .uint n => decide (n = 0)
  | .bytes s => decide (s.len = 0)

/-- The encoding of a field value (without its delta). -/
def FieldValue.encode : FieldValue → List Nat
  | .int i => encodeInt i
  | .uint n => encodeUint n
  | .bytes s => encodeUint s.len ++ s.toList

/-- Gob `encodeStruct` over the fields from index `idx` on; `fieldnum` is the
number of the last field written (`-1` at the start). -/
def encodeFields : List FieldValue → Int → Int → List Nat
  | [], _, _ => [0]
  | v :: vs, idx, fieldnum =>
    if v.isZero then encodeFields vs (idx + 1) fieldnum
    else encodeUint (idx - fieldnum).toNat ++ v.encode ++ encodeFields vs (idx + 1) idx

/-- Gob `writeMessage`: the message preceded by its length; a message of
`tooBig` bytes or more is an error. -/
def writeMessage (body : List Nat) : Except GoError (List Nat) :=
  if tooBig ≤ body.length then .error ⟨"gob: encoder: message too big"⟩
  else .ok (encodeUint body.length ++ body)

/-- The bytes of a name. -/
def nameBytes (name : String) : List Nat := name.toList.map Char.toNat

/-- One `fieldType` of a struct description: name and type id. -/
def fieldType (name : String) (id : Nat) : List Nat :=
  [1] ++ encodeUint (nameBytes name).length ++ nameBytes name ++ [1] ++ encodeInt id ++ [0]

/-- The `wireType` that describes `Block` under type id `typeId`: a
`structType` with the common type (name, id) and the seven fields; the type
ids 2, 3 and 5 are gob's `int`, `uint` and `[]byte`. -/
def blockWireType (typeId : Nat) : List Nat :=
  [3, 1, 1] ++ encodeUint (nameBytes "Block").length ++ nameBytes "Block" ++
    [1] ++ encodeInt typeId ++ [0, 1, 7] ++
    fieldType "Timestamp" 2 ++ fieldType "Data" 5 ++ fieldType "PreviousBlockHash" 5 ++
    fieldType "Hash" 5 ++ fieldType "TargetBits" 3 ++ fieldType "Nonce" 3 ++
    fieldType "Height" 2 ++ [0, 0]

/-- The body of the value message: the type id and the struct. -/
def valueBody (typeId : Nat) (b : Block) : List Nat :=
  encodeInt typeId ++ encodeFields b.fields 0 (-1)

/-- `gob.NewEncoder(&buff).Encode(b)` on a fresh encoder: the description of
the type, then the value.  `typeId` is the id the gob package has assigned to
`Block` in the running process (ids are handed out from 64 upwards as types
are first met). -/
def gobEncode (typeId : Nat) (b : Block) : Except GoError (List Nat) :=
  match writeMessage (encodeInt (-(typeId : Int)) ++ blockWireType typeId) with
  | .error e => .error e
  | .ok typeMessage =>
    match writeMessage (valueBody typeId b) with
    | .error e => .error e
    | .ok valueMessage => .ok (typeMessage ++ valueMessage)

/-- `Block.Serialize` (the receiver is a non-nil block). -/
def Serialize (typeId : Nat) (b : Block) : ByteSlice × Option GoError :=
  match gobEncode typeId b with
  | .error err => (.nil, some err)
  | .ok bytes => (.mk bytes, none)

/-- Gob `recvMessage`: the length, then that many bytes. -/
def recvMessage (bs : List Nat) : Parse (List Nat) :=
  match decodeUint bs with
  | .error e => .error e
  | .ok (n, rest) =>
    if tooBig ≤ n then .error ⟨"invalid message length"⟩
    else if rest.length < n then .error ⟨"unexpected EOF"⟩
    else .ok (rest.take n, rest.drop n)

/-- The zero value `var block Block` that the decoder fills. -/
def zeroBlock : Block :=
  { Timestamp := 0, Data := .nil, PreviousBlockHash := .nil, Hash := .nil,
    TargetBits := 0, Nonce := 0, Height := 0 }

/-- The decoding instruction of field `fieldnum`: read a value of the field's
type and store it. -/
def decodeField (fieldnum : Int) (b : Block) (bs : List Nat) : Parse Block :=
  if fieldnum = 0 then
    match decodeInt bs with
    | .error e => .error e
    | .ok (v, rest) => .ok ({ b with Timestamp := v }, rest)
  else if fieldnum = 1 then
    match decodeByteSlice bs with
    | .error e => .error e
    | .ok (v, rest) => .ok ({ b with Data := v }, rest)
  else if fieldnum = 2 then
    match decodeByteSlice bs with
    | .error e => .error e
    | .ok (v, rest) => .ok ({ b with PreviousBlockHash := v }, rest)
  else if fieldnum = 3 then
    match decodeByteSlice bs with
    | .error e => .error e
    | .ok (v, rest) => .ok ({ b with Hash := v }, rest)
  else if fieldnum = 4 then
    match decodeUint bs with
    | .error e => .error e
    | .ok (v, rest) => .ok ({ b with TargetBits := v }, rest)
  else if fieldnum = 5 then
    match decodeUint bs with
    | .error e => .error e
    | .ok (v, rest) => .ok ({ b with Nonce := v }, rest)
  else if fieldnum = 6 then
    match decodeInt bs with
    | .error e => .error e
    | .ok (v, rest) => .ok ({ b with Height := v }, rest)
  else .error ⟨"gob: bad data: field numbers out of bounds"⟩

/-- Gob `decodeStruct`: while the buffer is not empty read a delta, stop at a
zero delta, otherwise decode the field it leads to.  Every round consumes at
least one byte, so `fuel` (the buffer length) bounds the number of rounds. -/
def decodeFields : Nat → Int → Block → List Nat → Except GoError Block
  | 0, _, b, _ => .ok b
  | fuel + 1, fieldnum, b, bs =>
    match bs with
    | [] => .ok b
    | _ :: _ =>
      match decodeUint bs with
      | .error e => .error e
      | .ok (delta, rest) =>
        if 2 ^ 63 ≤ delta then .error ⟨"decode: corrupted data: negative delta"⟩
        else if delta = 0 then .ok b
        else if fieldnum ≥ 7 - (delta : Int) then
          .error ⟨"gob: bad data: field numbers out of bounds"⟩
        else
          match decodeField (fieldnum + delta) b rest with
          | .error e => .error e
          | .ok (b', rest') => decodeFields fuel (fieldnum + delta) b' rest'

/-- The lowest type id granted to a user type (`firstUserId`); the ids below
it belong to gob's built-in types. -/
def firstUserId : Nat := 64

/-- `gob.NewDecoder(reader).Decode(&block)` on a stream that opens with the
description of `Block` followed by a value of that type, which is what
`Serialize` writes.  As in `recvType`, a description under an id below
`firstUserId` is refused before it is read.  The model covers the streams
written by `Serialize` under a type id in the `int32` range; it refuses every
stream of another shape, among them streams that the library accepts (e.g.
descriptions of compatible types). -/
def gobDecode (bs : List Nat) : Except GoError Block :=
  match recvMessage bs with
  | .error e => .error e
  | .ok (typeMessage, rest) =>
    match decodeInt typeMessage with
    | .error e => .error e
    | .ok (negId, wire) =>
      if negId ≥ 0 then .error ⟨"gob: unknown type id or corrupted data"⟩
      else if -negId < (firstUserId : Int) then .error ⟨"gob: duplicate type received"⟩
      else if wire ≠ blockWireType (-negId).toNat then
        .error ⟨"gob: type mismatch"⟩
      else
        match recvMessage rest with
        | .error e => .error e
        | .ok (valueMessage, _) =>
          match decodeInt valueMessage with
          | .error e => .error e
          | .ok (id, fields) =>
            if id ≠ -negId then .error ⟨"gob: unknown type id or corrupted data"⟩
            else decodeFields fields.length (-1) zeroBlock fields

/-- `DeserializeBlock`. -/
def DeserializeBlock (encodedBlock : ByteSlice) : Option Block × Option GoError :=
  match gobDecode encodedBlock.toList with
  | .error err => (none, some err)
  | .ok block => (some block, none)

/-- The block after field number `idx` has received the value `v`. -/
def Block.store (b : Block) (idx : Int) : FieldValue → Block
  | .int i =>
    if idx = 0 then { b with Timestamp := i }
    else if idx = 6 then { b with Height := i } else b
  | .uint n =>
    if idx = 4 then { b with TargetBits := n }
    else if idx = 5 then { b with Nonce := n } else b
  | .bytes s =>
    if idx = 1 then { b with Data := s }
    else if idx = 2 then { b with PreviousBlockHash := s }
    else if idx = 3 then { b with Hash := s } else b

/-- The value has the type of field number `idx` and is in its range. -/
def FieldValue.fits (idx : Int) : FieldValue → Prop
  | .int i => (idx = 0 ∨ idx = 6) ∧ inInt i
  | .uint n => (idx = 4 ∨ idx = 5) ∧ inUint n
  | .bytes _ => idx = 1 ∨ idx = 2 ∨ idx = 3

/-- Every value of the list fits its field, the first one being field `idx`. -/
def fitsAll : List FieldValue → Int → Prop
  | [], _ => True
  | v :: vs, idx => v.fits idx ∧ fitsAll vs (idx + 1)

/-- The block after the non-zero values of the list have been stored, the
first value being that of field `idx`. -/
def storeAll : List FieldValue → Int → Block → Block
  | [], _, b => b
  | v :: vs, idx, b =>
    if v.isZero then storeAll vs (idx + 1) b else storeAll vs (idx + 1) (b.store idx v)

/-- The block with every empty slice replaced by the nil slice. -/
def Block.nilEmpty (b : Block) : Block :=
  { b with
    Data := if b.Data.len = 0 then .nil else b.Data
    PreviousBlockHash := if b.PreviousBlockHash.len = 0 then .nil else b.PreviousBlockHash
    Hash := if b.Hash.len = 0 then .nil else b.Hash }

/-! ## Proof of work -/

/-- Modelled from the spec: `NewProofOfWork`, `DoWork` and `Validate` are not
among the sources, so the scheme follows section 4.2 of the specification.
What the specification leaves to the implementation is a field of the scheme:
the 256-bit digest function, the byte serialisation of the integer header
fields, and the bound of the nonce space. -/
structure PowScheme where
  digest : List Nat → List Nat
  intToBytes : Int → List Nat
  maxNonce : Nat

/-- Modelled from the spec: "target = 2^(256 − targetBits)". -/
def target (targetBits : Nat) : Nat := 2 ^ (256 - targetBits)

/-- Modelled from the spec: the hash input
"previousBlockHash ‖ data ‖ timestamp ‖ targetBits ‖ nonce". -/
def prepareData (s : PowScheme) (b : Block) (nonce : Nat) : List Nat :=
  b.PreviousBlockHash.toList ++ b.Data.toList ++ s.intToBytes b.Timestamp ++
    s.intToBytes b.TargetBits ++ s.intToBytes nonce

/-- Modelled from the spec: the mining search of `Mine`, which "increments
nonce from 0 upward" and "accepts the first nonce whose digest, interpreted as
a big unsigned integer, is strictly less than target"; `fuel` is the part of
the nonce space not yet tried, and an exhausted nonce space is the error. -/
def mineFrom (s : PowScheme) (b : Block) : Nat → Nat → Nat × ByteSlice × Option GoError
  | 0, _ => (0, .nil, some ⟨"nonce space exhausted"⟩)
  | fuel + 1, nonce =>
    let hash := s.digest (prepareData s b nonce)
    if bytesToNat hash < target b.TargetBits then (nonce, .mk hash, none)
    else mineFrom s b fuel (nonce + 1)

/-- Modelled from the spec: `Mine(block)`, in the source
`NewProofOfWork(block).DoWork()`. -/
def DoWork (s : PowScheme) : Miner := fun b => mineFrom s b s.maxNonce 0

/-- Modelled from the spec: `Validate(block)`, in the source
`NewProofOfWork(block).Validate()`: it "recomputes the same hash input using
the block's stored nonce, timestamp, targetBits" and "returns true iff the
digest interpreted as an integer is less than the target". -/
def Validate (s : PowScheme) (b : Block) : Bool :=
  decide (bytesToNat (s.digest (prepareData s b b.Nonce)) < target b.TargetBits)

/-! ## Persistence

The sources hold only the tests of the persistence package
(`boltdb_test.go`, `filesystem_test.go`); the two stores follow sections 3, 4.4
and 4.5 of the specification.  The outcome of the underlying storage engine
(the embedded key-value store, the file system) is an argument of every write:
`none` when the engine performs the write, `some err` when it fails.
-/

/-- Modelled from the spec: the persisted record
"{height: integer, location: string}", keyed by block hash. -/
structure BlockMetadata where
  height : Int
  location : String
deriving DecidableEq, Repr

/-- Modelled from the spec: the metadata store (the `dbManager` of the tests,
whose implementation is missing): a "mapping from block hash to {height,
storage-location}, plus a pointer to the most recently appended hash (chain
tip)".  The newest entry for a hash comes first in `table`. -/
structure MetadataStore where
  table : List (List Nat × BlockMetadata)
  tip : Option (List Nat)
deriving DecidableEq, Repr

/-- Modelled from the spec: the height of "the currently stored tip", when the
store has a tip. -/
def MetadataStore.tipHeight (s : MetadataStore) : Option Int :=
  match s.tip with
  | none => none
  | some t => (s.table.lookup t).map fun m => m.height

/-- Modelled from the spec: a save advances the tip when its height "is
strictly greater than the currently stored tip's height", or when no tip is
stored yet. -/
def MetadataStore.tipAdvancing (s : MetadataStore) (m : BlockMetadata) : Bool :=
  match s.tipHeight with
  | none => true
  | some t => decide (t < m.height)

/-- Modelled from the spec: `SaveBlockMetadata(hash, metadata)` "inserts or
overwrites hash → {height, location}" and "also updates the chain-tip pointer
to hash if and only if metadata.height is strictly greater than the currently
stored tip's height"; on an engine failure the error is returned and "no
partial state is committed". -/
def SaveBlockMetadata (engine : Option GoError) (s : MetadataStore) (hash : List Nat)
    (m : BlockMetadata) : MetadataStore × Option GoError :=
  match engine with
  | some err => (s, some err)
  | none =>
    ({ table := (hash, m) :: s.table
       tip := if s.tipAdvancing m then some hash else s.tip }, none)

/-- Modelled from the spec: `RetrieveBlockLocation(hash)` (in the tests
`RetrieveBlockPathByHash`) returns the "location string; fails with a
not-found error if the hash is absent". -/
def RetrieveBlockPathByHash (s : MetadataStore) (hash : List Nat) : String × Option GoError :=
  match s.table.lookup hash with
  | some m => (m.location, none)
  | none => ("", some ⟨"not found"⟩)

/-- Modelled from the spec: `LastUsedHash()` returns the "hash of current chain
tip; fails if the store is empty (no genesis yet)". -/
def lastUsedHash (s : MetadataStore) : ByteSlice × Option GoError :=
  match s.tip with
  | some t => (.mk t, none)
  | none => (.nil, some ⟨"empty store"⟩)

/-- One `SaveBlockMetadata` call with the outcome of the storage engine. -/
structure Save where
  engine : Option GoError
  hash : List Nat
  metadata : BlockMetadata

/-- Modelled from the spec: "N sequential tip-advancing saves": the store after
the calls of the list, when every call advances the tip of the store it finds
and succeeds; `none` otherwise. -/
def runSaves : MetadataStore → List Save → Option MetadataStore
  | s, [] => some s
  | s, x :: xs =>
    if s.tipAdvancing x.metadata then
      match SaveBlockMetadata x.engine s x.hash x.metadata with
      | (s', none) => runSaves s' xs
      | (_, some _) => none
    else none

/-- Modelled from the spec: the block store (the `fsManager` of the tests,
whose implementation is missing): "persistent storage of raw encoded block
bytes, addressed by a generated filename".  The newest write to a location
comes first. -/
structure BlockStore where
  files : List (String × List Nat)
deriving DecidableEq, Repr

/-- Modelled from the spec: `SaveBlock(bytes, height)` "generates a location
identifier (e.g., derived from height) [...], writes the bytes durably, returns
the identifier.  Fails on I/O error"; `locate` is the naming scheme, and the
last write to an identifier wins. -/
def SaveBlock (locate : Int → String) (engine : Option GoError) (s : BlockStore)
    (bytes : List Nat) (height : Int) : BlockStore × String × Option GoError :=
  match engine with
  | some err => (s, "", some err)
  | none => ({ files := (locate height, bytes) :: s.files }, locate height, none)

/-- Modelled from the spec: `LoadBlock(location)` "returns the raw bytes
previously written at that location; fails with a not-found error if
absent". -/
def LoadBlock (s : BlockStore) (location : String) : ByteSlice × Option GoError :=
  match s.files.lookup location with
  | some bytes => (.mk bytes, none)
  | none => (.nil, some ⟨"not found"⟩)

/-! ## Sample inputs -/

/-- The metadata of the tests: height 1, stored at `/test/testblock1.dat`. -/
def sampleMetadata : BlockMetadata := { height := 1, location := "/test/testblock1.dat" }

/-- A store without entries. -/
def emptyMetadataStore : MetadataStore := { table := [], tip := none }

/-- The naming scheme of the sample block store. -/
def sampleLocate (height : Int) : String := "test/block" ++ toString height ++ ".dat"

/-- A small proof-of-work scheme: the digest is 32 bytes whose leading byte is
the byte sum of the input modulo 3. -/
def sampleScheme : PowScheme :=
  { digest := fun bs => (bs.sum % 3) :: List.replicate 31 (bs.length % 256)
    intToBytes := fun i => [(i % 256).toNat]
    maxNonce := 16 }

/-- A mining step that succeeds at once with nonce 3 and a two-byte hash. -/
def sampleMiner : Miner := fun _ => (3, .mk [0, 171], none)

/-- A mined block at the given height, difficulty and timestamp. -/
def sampleBlock (height : Int) (targetBits : Nat) (timestamp : Int) : Block :=
  { Timestamp := timestamp
    Data := .mk [83, 78]
    PreviousBlockHash := .mk [0, 9]
    Hash := .mk [0, 7]
    TargetBits := targetBits
    Nonce := 5
    Height := height }

/-- The block that `NewBlock` returns for payload `[1, 2]` and parent
`sampleBlock 4 8 100` under `sampleScheme`, read at times 130 and 131. -/
def sampleMinedChild : Block :=
  { Timestamp := 131
    Data := .mk [1, 2]
    PreviousBlockHash := .mk [0, 7]
    Hash := .mk (0 :: List.replicate 31 7)
    TargetBits := 8
    Nonce := 1
    Height := 5 }

/-- The genesis block that `NewGenesisBlock` returns for payload `[83, 78]`
at time 100 with `sampleMiner`. -/
def sampleGenesis : Block :=
  { Timestamp := 100
    Data := .mk [83, 78]
    PreviousBlockHash := .mk []
    Hash := .mk [0, 171]
    TargetBits := 8
    Nonce := 3
    Height := 0 }

/-- A block whose payload has `2^33` bytes. -/
def hugeBlock : Block :=
  { zeroBlock with Data := .mk (List.replicate (2 ^ 33) 0) }

/-- A call mined by `sampleMiner` at time `now` (both clock readings). -/
def sampleCall (now : Int) : Call :=
  { doWork := sampleMiner, nowAdj := now, nowStamp := now, data := .mk [1] }

/-- A call whose mining step returns the nonce and hash given. -/
def callWith (nonce : Nat) (hash : List Nat) (now : Int) : Call :=
  { doWork := fun _ => (nonce, .mk hash, none), nowAdj := now, nowStamp := now, data := .mk [1] }

/-- A block as `sampleCall` or `callWith` produce it. -/
def chainBlock (now : Int) (prevHash hash : List Nat) (targetBits nonce : Nat)
    (height : Int) : Block :=
  { Timestamp := now, Data := .mk [1], PreviousBlockHash := .mk prevHash, Hash := .mk hash,
    TargetBits := targetBits, Nonce := nonce, Height := height }

/-- The chain of three blocks built by `callWith` at times 100, 107, 113. -/
def sampleChain : List Block :=
  [chainBlock 100 [] [0, 1] 8 11 0, chainBlock 107 [0, 1] [0, 2] 8 12 1,
    chainBlock 113 [0, 2] [0, 3] 8 13 2]

/-- The chain of seven blocks built by `sampleCall 100` as genesis call and six
calls `sampleCall 200`: heights 0 to 6, the last one with a recomputed
difficulty. -/
def sampleLongChain : List Block :=
  chainBlock 100 [] [0, 171] 8 3 0 ::
    ([1, 2, 3, 4, 5].map fun h => chainBlock 200 [0, 171] [0, 171] 8 3 h) ++
    [chainBlock 200 [0, 171] [0, 171] 16 3 6]

/-! ## Helper lemmas -/

theorem wrapInt_of_inInt {i : Int} (h : inInt i) : wrapInt i = i := by
  unfold inInt at h
  unfold wrapInt
  omega

theorem wrapUint_of_range {i : Int} (h0 : 0 ≤ i) (h1 : i < 2 ^ 64) :
    (wrapUint i : Int) = i := by
  unfold wrapUint
  omega

theorem tmod_five_eq_zero_iff (h : Int) : Int.tmod h 5 = 0 ↔ (5 : Int) ∣ h := by
  constructor
  · intro hm
    exact Int.dvd_of_tmod_eq_zero hm
  · intro hd
    exact Int.tmod_eq_zero_of_dvd hd

theorem mineAndSeal_ok {doWork : Miner} {blk B : Block}
    (h : mineAndSeal doWork blk = (some B, none)) :
    B = { blk with Hash := (doWork blk).2.1, Nonce := (doWork blk).1 } ∧
      (doWork blk).2.2 = none := by
  unfold mineAndSeal at h
  rcases hw : doWork blk with ⟨nonce, hash, err⟩
  rw [hw] at h
  cases err with
  | some e => simp at h
  | none =>
    simp only [Prod.mk.injEq, Option.some.injEq, and_true] at h
    exact ⟨h.symm, rfl⟩

theorem NewBlock_some (doWork : Miner) (nowAdj nowStamp : Int) (d : ByteSlice) (P : Block) :
    ∃ difficulty, getDifficulty nowAdj (some P) = .done difficulty ∧
      NewBlock doWork nowAdj nowStamp d (some P) =
        .done (mineAndSeal doWork (newBlockLiteral nowStamp d difficulty P)) := by
  by_cases hc : Int.tmod P.Height difficultyAdjustmentInterval = 0 ∧ P.Height ≠ 0
  · exact ⟨getAdjustedDifficulty nowAdj P, by simp [getDifficulty, hc],
      by simp [NewBlock, getDifficulty, hc]⟩
  · exact ⟨P.TargetBits, by simp [getDifficulty, hc], by simp [NewBlock, getDifficulty, hc]⟩

theorem NewBlock_links_height (doWork : Miner) (nowAdj nowStamp : Int) (d : ByteSlice)
    (P B : Block) (h : NewBlock doWork nowAdj nowStamp d (some P) = .done (some B, none)) :
    B.Height = wrapInt (P.Height + 1) := by
  obtain ⟨difficulty, -, hn⟩ := NewBlock_some doWork nowAdj nowStamp d P
  rw [hn] at h
  have hs := (mineAndSeal_ok (Exec.done.inj h)).1
  subst hs
  rfl

/-! ## Construction contracts -/

/-- C1: whenever `NewBlock(d, P)` succeeds with block `B`, the block points to
its parent (`B.PreviousBlockHash == P.Hash`), its height is the Go value
`P.Height + 1` (the mathematical successor whenever the parent's height is below
the largest `int`), and it carries the payload `d`. -/
theorem NewBlock_links_to_parent (doWork : Miner) (nowAdj nowStamp : Int) (d : ByteSlice)
    (P B : Block) (h : NewBlock doWork nowAdj nowStamp d (some P) = .done (some B, none)) :
    B.PreviousBlockHash = P.Hash ∧ B.Height = wrapInt (P.Height + 1) ∧
      (inInt (P.Height + 1) → B.Height = P.Height + 1) ∧ B.Data = d := by
  obtain ⟨difficulty, -, hn⟩ := NewBlock_some doWork nowAdj nowStamp d P
  rw [hn] at h
  have hs := (mineAndSeal_ok (Exec.done.inj h)).1
  subst hs
  refine ⟨rfl, rfl, ?_, rfl⟩
  intro hr
  exact wrapInt_of_inInt hr

theorem NewBlock_links_to_parent_witness :
    NewBlock sampleMiner 130 131 (.mk [1, 2]) (some (sampleBlock 4 8 100)) =
        .done (some
          { Timestamp := 131, Data := .mk [1, 2], PreviousBlockHash := .mk [0, 7],
            Hash := .mk [0, 171], TargetBits := 8, Nonce := 3, Height := 5 }, none) ∧
      (ByteSlice.mk [0, 7] = (sampleBlock 4 8 100).Hash ∧
        (5 : Int) = wrapInt ((sampleBlock 4 8 100).Height + 1) ∧
        (inInt ((sampleBlock 4 8 100).Height + 1) → (5 : Int) = (sampleBlock 4 8 100).Height + 1) ∧
        ByteSlice.mk [1, 2] = ByteSlice.mk [1, 2]) :=
  ⟨by decide,
    NewBlock_links_to_parent sampleMiner 130 131 (.mk [1, 2]) (sampleBlock 4 8 100)
      { Timestamp := 131, Data := .mk [1, 2], PreviousBlockHash := .mk [0, 7],
        Hash := .mk [0, 171], TargetBits := 8, Nonce := 3, Height := 5 } (by decide)⟩

/-- C2: whenever `NewGenesisBlock(d)` succeeds, the block has height 0, an empty
(non-nil) previous hash, the initial difficulty 8 and the payload `d`. -/
theorem NewGenesisBlock_shape (doWork : Miner) (now : Int) (d : ByteSlice) (B : Block)
    (h : NewGenesisBlock doWork now d = (some B, none)) :
    B.Height = 0 ∧ B.PreviousBlockHash = .mk [] ∧ B.PreviousBlockHash.len = 0 ∧
      B.TargetBits = 8 ∧ B.Data = d := by
  have hs := (mineAndSeal_ok h).1
  subst hs
  exact ⟨rfl, rfl, rfl, rfl, rfl⟩

theorem NewGenesisBlock_shape_witness :
    NewGenesisBlock sampleMiner 100 (.mk [83, 78]) =
        (some
          { Timestamp := 100, Data := .mk [83, 78], PreviousBlockHash := .mk [],
            Hash := .mk [0, 171], TargetBits := 8, Nonce := 3, Height := 0 }, none) ∧
      ((0 : Int) = 0 ∧ ByteSlice.mk [] = .mk [] ∧ (ByteSlice.mk []).len = 0 ∧
        (8 : Nat) = 8 ∧ ByteSlice.mk [83, 78] = .mk [83, 78]) :=
  ⟨by decide,
    NewGenesisBlock_shape sampleMiner 100 (.mk [83, 78])
      { Timestamp := 100, Data := .mk [83, 78], PreviousBlockHash := .mk [],
        Hash := .mk [0, 171], TargetBits := 8, Nonce := 3, Height := 0 } (by decide)⟩

/-! ## Difficulty policy -/

theorem getDifficulty_at_interval (now : Int) (P : Block)
    (hc : (5 : Int) ∣ P.Height ∧ P.Height ≠ 0) :
    getDifficulty now (some P) = .done (getAdjustedDifficulty now P) := by
  have hc2 : Int.tmod P.Height difficultyAdjustmentInterval = 0 ∧ P.Height ≠ 0 :=
    ⟨(tmod_five_eq_zero_iff P.Height).2 hc.1, hc.2⟩
  simp [getDifficulty, hc2]

theorem getDifficulty_off_interval (now : Int) (P : Block)
    (hc : ¬ ((5 : Int) ∣ P.Height ∧ P.Height ≠ 0)) :
    getDifficulty now (some P) = .done P.TargetBits := by
  have hc2 : ¬ (Int.tmod P.Height difficultyAdjustmentInterval = 0 ∧ P.Height ≠ 0) := by
    intro h
    exact hc ⟨(tmod_five_eq_zero_iff P.Height).1 h.1, h.2⟩
  simp only [getDifficulty, hc2, if_false]

theorem NewBlock_targetBits (doWork : Miner) (nowAdj nowStamp : Int) (d : ByteSlice)
    (P B : Block) (h : NewBlock doWork nowAdj nowStamp d (some P) = .done (some B, none)) :
    getDifficulty nowAdj (some P) = .done B.TargetBits := by
  obtain ⟨difficulty, hd, hn⟩ := NewBlock_some doWork nowAdj nowStamp d P
  rw [hn] at h
  have hs := (mineAndSeal_ok (Exec.done.inj h)).1
  subst hs
  exact hd

/-- C5: `getDifficulty(P)` recomputes exactly when the parent's height is a
non-zero multiple of `difficultyAdjustmentInterval = 5`: then it returns
`getAdjustedDifficulty(P)`; for every other parent it returns `P.TargetBits`,
and the block built by `NewBlock` inherits the parent's `TargetBits`. -/
theorem getDifficulty_recomputes_at_parent_interval (now : Int) (P : Block) :
    difficultyAdjustmentInterval = 5 ∧
    (((5 : Int) ∣ P.Height ∧ P.Height ≠ 0) →
      getDifficulty now (some P) = .done (getAdjustedDifficulty now P)) ∧
    (¬ ((5 : Int) ∣ P.Height ∧ P.Height ≠ 0) →
      getDifficulty now (some P) = .done P.TargetBits ∧
      ∀ (doWork : Miner) (nowStamp : Int) (d : ByteSlice) (B : Block),
        NewBlock doWork now nowStamp d (some P) = .done (some B, none) →
          B.TargetBits = P.TargetBits) := by
  refine ⟨rfl, getDifficulty_at_interval now P, ?_⟩
  intro hc
  refine ⟨getDifficulty_off_interval now P hc, ?_⟩
  intro doWork nowStamp d B h
  have h1 := NewBlock_targetBits doWork now nowStamp d P B h
  rw [getDifficulty_off_interval now P hc] at h1
  exact (Exec.done.inj h1).symm

theorem getDifficulty_recomputes_at_parent_interval_witness :
    getDifficulty 200 (some (sampleBlock 5 8 100)) =
        .done (getAdjustedDifficulty 200 (sampleBlock 5 8 100)) ∧
      getDifficulty 200 (some (sampleBlock 4 8 100)) = .done 8 ∧
      getDifficulty 200 (some (sampleBlock 0 8 100)) = .done 8 :=
  ⟨(getDifficulty_recomputes_at_parent_interval 200 (sampleBlock 5 8 100)).2.1 (by decide),
    ((getDifficulty_recomputes_at_parent_interval 200 (sampleBlock 4 8 100)).2.2
      (by decide)).1,
    ((getDifficulty_recomputes_at_parent_interval 200 (sampleBlock 0 8 100)).2.2
      (by decide)).1⟩

/-- C6: the code at the failing inputs.  The parent was stamped at 100 and has
difficulty 16.  At `now = 200` the elapsed time is 100 s, above the 10 s
interval, and the code returns 24 (raised) where the policy asks for 8
(lowered); at `now = 110` the elapsed time is exactly 10 s and the code
returns 24 where the policy asks for 16 (unchanged). -/
theorem getAdjustedDifficulty_reversed_sign :
    (200 - (sampleBlock 5 16 100).Timestamp > blockGenerationInterval ∧
      getAdjustedDifficulty 200 (sampleBlock 5 16 100) = 24 ∧
      (sampleBlock 5 16 100).TargetBits - 8 = 8) ∧
    (110 - (sampleBlock 5 16 100).Timestamp = blockGenerationInterval ∧
      getAdjustedDifficulty 110 (sampleBlock 5 16 100) = 24 ∧
      (sampleBlock 5 16 100).TargetBits = 16) := by
  decide

/-- C7 fails as stated: the parent is at height 5, the new block is at height 6,
which is not a multiple of 5, yet its difficulty is recomputed (16, the parent
has 8). -/
theorem NewBlock_own_height_counterexample :
    ∃ B : Block,
      NewBlock sampleMiner 200 200 (.mk [1]) (some (sampleBlock 5 8 100)) = .done (some B, none) ∧
      B.Height = 6 ∧ ¬ (Int.tmod B.Height 5 = 0 ∧ B.Height ≠ 0) ∧
      B.TargetBits = 16 ∧ (sampleBlock 5 8 100).TargetBits = 8 :=
  ⟨{ Timestamp := 200, Data := .mk [1], PreviousBlockHash := .mk [0, 7],
      Hash := .mk [0, 171], TargetBits := 16, Nonce := 3, Height := 6 }, by decide⟩

/-- C7 as amended: for every block `B` returned by `NewBlock` from parent `P`,
if the parent's height is not a non-zero multiple of 5 then
`B.TargetBits == P.TargetBits`, and otherwise `B.TargetBits` is the recomputed
difficulty; in terms of the block's own height (when `P.Height + 1` does not
overflow) the difficulty is recomputed exactly for the heights `h` with
`h - 1` a non-zero multiple of 5. -/
theorem NewBlock_inherits_off_parent_interval (doWork : Miner) (nowAdj nowStamp : Int)
    (d : ByteSlice) (P B : Block)
    (h : NewBlock doWork nowAdj nowStamp d (some P) = .done (some B, none)) :
    (¬ ((5 : Int) ∣ P.Height ∧ P.Height ≠ 0) → B.TargetBits = P.TargetBits) ∧
    (((5 : Int) ∣ P.Height ∧ P.Height ≠ 0) →
      B.TargetBits = getAdjustedDifficulty nowAdj P) ∧
    (inInt (P.Height + 1) →
      (((5 : Int) ∣ P.Height ∧ P.Height ≠ 0) ↔ ((5 : Int) ∣ B.Height - 1 ∧ B.Height ≠ 1))) := by
  have h1 := NewBlock_targetBits doWork nowAdj nowStamp d P B h
  have hH := (NewBlock_links_height doWork nowAdj nowStamp d P B h)
  refine ⟨?_, ?_, ?_⟩
  · intro hc
    rw [getDifficulty_off_interval nowAdj P hc] at h1
    exact (Exec.done.inj h1).symm
  · intro hc
    rw [getDifficulty_at_interval nowAdj P hc] at h1
    exact (Exec.done.inj h1).symm
  · intro hr
    rw [hH, wrapInt_of_inInt hr]
    have e : P.Height + 1 - 1 = P.Height := by ring
    rw [e]
    constructor
    · rintro ⟨h5, h0⟩
      exact ⟨h5, by omega⟩
    · rintro ⟨h5, h0⟩
      exact ⟨h5, by omega⟩

theorem NewBlock_inherits_off_parent_interval_witness :
    NewBlock sampleMiner 200 200 (.mk [1]) (some (sampleBlock 4 8 100)) =
        .done (some
          { Timestamp := 200, Data := .mk [1], PreviousBlockHash := .mk [0, 7],
            Hash := .mk [0, 171], TargetBits := 8, Nonce := 3, Height := 5 }, none) ∧
      (8 : Nat) = (sampleBlock 4 8 100).TargetBits :=
  ⟨by decide,
    (NewBlock_inherits_off_parent_interval sampleMiner 200 200 (.mk [1]) (sampleBlock 4 8 100)
      { Timestamp := 200, Data := .mk [1], PreviousBlockHash := .mk [0, 7],
        Hash := .mk [0, 171], TargetBits := 8, Nonce := 3, Height := 5 } (by decide)).1
      (by decide)⟩

theorem getAdjustedDifficulty_cases (now : Int) (P : Block) :
    getAdjustedDifficulty now P = wrapUint ((P.TargetBits : Int) - 8) ∨
      getAdjustedDifficulty now P = wrapUint ((P.TargetBits : Int) + 8) ∨
      getAdjustedDifficulty now P = P.TargetBits := by
  unfold getAdjustedDifficulty
  simp only
  split_ifs
  · exact Or.inl rfl
  · exact Or.inr (Or.inl rfl)
  · exact Or.inr (Or.inr rfl)

theorem getDifficulty_bounded (now : Int) (P : Block)
    (hlo : 1 ≤ P.TargetBits) (hhi : P.TargetBits ≤ 256)
    (hmid : ((5 : Int) ∣ P.Height ∧ P.Height ≠ 0) → 9 ≤ P.TargetBits ∧ P.TargetBits ≤ 248) :
    ∃ t, getDifficulty now (some P) = .done t ∧ 0 < t ∧ t ≤ 256 := by
  by_cases hc : (5 : Int) ∣ P.Height ∧ P.Height ≠ 0
  · refine ⟨getAdjustedDifficulty now P, getDifficulty_at_interval now P hc, ?_⟩
    obtain ⟨h9, h248⟩ := hmid hc
    have hsub : (wrapUint ((P.TargetBits : Int) - 8) : Int) = (P.TargetBits : Int) - 8 :=
      wrapUint_of_range (by omega) (by omega)
    have hadd : (wrapUint ((P.TargetBits : Int) + 8) : Int) = (P.TargetBits : Int) + 8 :=
      wrapUint_of_range (by omega) (by omega)
    rcases getAdjustedDifficulty_cases now P with h | h | h <;> rw [h] <;> omega
  · exact ⟨P.TargetBits, getDifficulty_off_interval now P hc, by omega, hhi⟩

/-- C8 fails as stated: the difficulty is not clamped.  A parent at height 5 with
`TargetBits = 256` stamped in the past yields 264, above the digest width, and
a parent with `TargetBits = 8` stamped 100 s in the future yields 0. -/
theorem getDifficulty_unclamped_counterexample :
    (1 ≤ (sampleBlock 5 256 100).TargetBits ∧ (sampleBlock 5 256 100).TargetBits ≤ 256 ∧
      getDifficulty 200 (some (sampleBlock 5 256 100)) = .done 264 ∧ ¬ (264 ≤ 256)) ∧
    (1 ≤ (sampleBlock 5 8 200).TargetBits ∧ (sampleBlock 5 8 200).TargetBits ≤ 256 ∧
      getDifficulty 100 (some (sampleBlock 5 8 200)) = .done 0 ∧ ¬ (0 < 0)) := by
  decide

/-- C8 as amended: for every previous block `P` with `1 <= P.TargetBits <= 256`
and every current time, the difficulty returned by `getDifficulty(P)` (and the
`TargetBits` of the block built by `NewBlock`) is greater than 0 and at most
256, provided that `9 <= P.TargetBits <= 248` whenever the difficulty is
recomputed (parent height a non-zero multiple of 5). -/
theorem getDifficulty_in_range (now : Int) (P : Block)
    (hlo : 1 ≤ P.TargetBits) (hhi : P.TargetBits ≤ 256)
    (hmid : ((5 : Int) ∣ P.Height ∧ P.Height ≠ 0) → 9 ≤ P.TargetBits ∧ P.TargetBits ≤ 248) :
    (∃ t, getDifficulty now (some P) = .done t ∧ 0 < t ∧ t ≤ 256) ∧
    ∀ (doWork : Miner) (nowStamp : Int) (d : ByteSlice) (B : Block),
      NewBlock doWork now nowStamp d (some P) = .done (some B, none) →
        0 < B.TargetBits ∧ B.TargetBits ≤ 256 := by
  obtain ⟨t, ht, h0, h256⟩ := getDifficulty_bounded now P hlo hhi hmid
  refine ⟨⟨t, ht, h0, h256⟩, ?_⟩
  intro doWork nowStamp d B h
  have h1 := NewBlock_targetBits doWork now nowStamp d P B h
  rw [ht] at h1
  have h2 := Exec.done.inj h1
  omega

theorem getDifficulty_in_range_witness :
    (1 ≤ (sampleBlock 5 16 100).TargetBits ∧ (sampleBlock 5 16 100).TargetBits ≤ 256) ∧
      (∃ t, getDifficulty 200 (some (sampleBlock 5 16 100)) = .done t ∧ 0 < t ∧ t ≤ 256) :=
  ⟨by decide,
    (getDifficulty_in_range 200 (sampleBlock 5 16 100) (by decide) (by decide)
      (fun _ => by decide)).1⟩

/-! ## Error results -/

/-- C9 fails as stated: with a nil previous block `NewBlock` does not return an
error, it aborts on the nil dereference in `getDifficulty`. -/
theorem NewBlock_nil_counterexample :
    NewBlock sampleMiner 0 0 (.mk [1]) none = .panic ∧
      ¬ ∃ e : GoError, NewBlock sampleMiner 0 0 (.mk [1]) none = .done (none, some e) := by
  refine ⟨by decide, ?_⟩
  rintro ⟨e, he⟩
  have hp : NewBlock sampleMiner 0 0 (.mk [1]) none = .panic := by decide
  rw [hp] at he
  cases he

/-- C9 as amended: `NewBlock(d, nil)` returns neither a block nor an error for
any payload `d`: it aborts with a nil-pointer panic when `getDifficulty` reads
the height of the previous block, before the block is built or mined. -/
theorem NewBlock_nil_panics (doWork : Miner) (nowAdj nowStamp : Int) (d : ByteSlice) :
    getDifficulty nowAdj none = .panic ∧
      NewBlock doWork nowAdj nowStamp d none = .panic :=
  ⟨rfl, rfl⟩

theorem mineAndSeal_result (doWork : Miner) (blk : Block) :
    (mineAndSeal doWork blk).2 = (doWork blk).2.2 ∧
      ((mineAndSeal doWork blk).2 ≠ none → (mineAndSeal doWork blk).1 = none) ∧
      ((mineAndSeal doWork blk).2 = none → (mineAndSeal doWork blk).1 ≠ none) := by
  unfold mineAndSeal
  rcases hw : doWork blk with ⟨nonce, hash, err⟩
  cases err <;> simp

/-- C10: `NewBlock` (non-nil previous block) and `NewGenesisBlock` return an
error if and only if `DoWork` on the freshly built block returns one; the error
returned is exactly the mining error and the block is then nil; otherwise the
error is nil and the block is non-nil. -/
theorem constructors_propagate_mining_error (doWork : Miner) (nowAdj nowStamp : Int)
    (d : ByteSlice) (P : Block) :
    (∃ difficulty blk err,
      getDifficulty nowAdj (some P) = .done difficulty ∧
      NewBlock doWork nowAdj nowStamp d (some P) = .done (blk, err) ∧
      err = (doWork (newBlockLiteral nowStamp d difficulty P)).2.2 ∧
      (err ≠ none → blk = none) ∧ (err = none → blk ≠ none)) ∧
    ((NewGenesisBlock doWork nowStamp d).2 = (doWork (genesisLiteral nowStamp d)).2.2 ∧
      ((NewGenesisBlock doWork nowStamp d).2 ≠ none → (NewGenesisBlock doWork nowStamp d).1 = none) ∧
      ((NewGenesisBlock doWork nowStamp d).2 = none →
        (NewGenesisBlock doWork nowStamp d).1 ≠ none)) := by
  constructor
  · obtain ⟨difficulty, hd, hn⟩ := NewBlock_some doWork nowAdj nowStamp d P
    obtain ⟨h1, h2, h3⟩ := mineAndSeal_result doWork (newBlockLiteral nowStamp d difficulty P)
    exact ⟨difficulty, (mineAndSeal doWork (newBlockLiteral nowStamp d difficulty P)).1,
      (mineAndSeal doWork (newBlockLiteral nowStamp d difficulty P)).2, hd, hn, h1, h2, h3⟩
  · exact mineAndSeal_result doWork (genesisLiteral nowStamp d)

/-! ## Proof of work -/

theorem mineFrom_ok (s : PowScheme) (b : Block) (fuel start nonce : Nat) (hash : ByteSlice)
    (h : mineFrom s b fuel start = (nonce, hash, none)) :
    bytesToNat (s.digest (prepareData s b nonce)) < target b.TargetBits ∧
      hash = .mk (s.digest (prepareData s b nonce)) ∧ start ≤ nonce ∧ nonce < start + fuel := by
  induction fuel generalizing start with
  | zero => simp [mineFrom] at h
  | succ fuel ih =>
    unfold mineFrom at h
    simp only at h
    split_ifs at h with hlt
    · simp only [Prod.mk.injEq, and_true] at h
      obtain ⟨hn, hh⟩ := h
      subst hn
      exact ⟨hlt, hh.symm, le_refl _, by omega⟩
    · obtain ⟨h1, h2, h3, h4⟩ := ih (start + 1) h
      exact ⟨h1, h2, by omega, by omega⟩

theorem mineAndSeal_validates (s : PowScheme) (blk B : Block)
    (h : mineAndSeal (DoWork s) blk = (some B, none)) :
    Validate s B = true ∧ B.Hash = .mk (s.digest (prepareData s B B.Nonce)) ∧
      B.Nonce < s.maxNonce := by
  obtain ⟨hB, herr⟩ := mineAndSeal_ok h
  rcases hw : DoWork s blk with ⟨nonce, hash, err⟩
  rw [hw] at hB herr
  simp only at hB herr
  subst herr
  unfold DoWork at hw
  obtain ⟨h1, h2, -, h4⟩ := mineFrom_ok s blk s.maxNonce 0 nonce hash hw
  subst hB
  have hp : ∀ n, prepareData s { blk with Hash := hash, Nonce := nonce } n = prepareData s blk n :=
    fun _ => rfl
  refine ⟨?_, ?_, by simpa using h4⟩
  · unfold Validate
    simp only [hp]
    exact decide_eq_true h1
  · simp only [hp]
    exact h2

/-- C4: every block returned successfully by `NewBlock` or `NewGenesisBlock`
passes proof-of-work validation: `Validate` is true for the stored nonce and
target bits, i.e. the digest recomputed from the stored header fields and
nonce is below `2^(256 - TargetBits)`, and the stored hash is that digest. -/
theorem constructed_blocks_validate (s : PowScheme) (nowAdj nowStamp : Int) (d : ByteSlice)
    (P B : Block)
    (h : NewBlock (DoWork s) nowAdj nowStamp d (some P) = .done (some B, none) ∨
      NewGenesisBlock (DoWork s) nowStamp d = (some B, none)) :
    Validate s B = true ∧
      bytesToNat (s.digest (prepareData s B B.Nonce)) < 2 ^ (256 - B.TargetBits) ∧
      B.Hash = .mk (s.digest (prepareData s B B.Nonce)) := by
  have key : ∃ blk, mineAndSeal (DoWork s) blk = (some B, none) := by
    rcases h with h | h
    · obtain ⟨difficulty, -, hn⟩ := NewBlock_some (DoWork s) nowAdj nowStamp d P
      rw [hn] at h
      exact ⟨_, Exec.done.inj h⟩
    · exact ⟨_, h⟩
  obtain ⟨blk, hb⟩ := key
  obtain ⟨hv, hh, -⟩ := mineAndSeal_validates s blk B hb
  refine ⟨hv, ?_, hh⟩
  unfold Validate at hv
  exact of_decide_eq_true hv

theorem constructed_blocks_validate_witness :
    NewBlock (DoWork sampleScheme) 130 131 (.mk [1, 2]) (some (sampleBlock 4 8 100)) =
        .done (some sampleMinedChild, none) ∧
      (Validate sampleScheme sampleMinedChild = true ∧
        bytesToNat (sampleScheme.digest (prepareData sampleScheme sampleMinedChild
          sampleMinedChild.Nonce)) < 2 ^ (256 - sampleMinedChild.TargetBits) ∧
        sampleMinedChild.Hash =
          .mk (sampleScheme.digest (prepareData sampleScheme sampleMinedChild
            sampleMinedChild.Nonce))) :=
  ⟨by decide,
    constructed_blocks_validate sampleScheme 130 131 (.mk [1, 2]) (sampleBlock 4 8 100)
      sampleMinedChild (Or.inl (by decide))⟩

/-! ## Block codec: integers -/

theorem bytesToNat_snoc (xs : List Nat) (y : Nat) :
    bytesToNat (xs ++ [y]) = bytesToNat xs * 256 + y := by
  simp [bytesToNat, List.foldl_append]

theorem length_bigEndianBytes (count n : Nat) : (bigEndianBytes count n).length = count := by
  induction count generalizing n with
  | zero => rfl
  | succ k ih => simp [bigEndianBytes, ih]

theorem bytesToNat_bigEndianBytes (count n : Nat) :
    bytesToNat (bigEndianBytes count n) = n % 256 ^ count := by
  induction count generalizing n with
  | zero => simp [bigEndianBytes, bytesToNat, Nat.mod_one]
  | succ k ih =>
    rw [bigEndianBytes, bytesToNat_snoc, ih, pow_succ, Nat.mul_comm (256 ^ k) 256, Nat.mod_mul]
    ring

theorem sigBytes_le (width n : Nat) : sigBytes width n ≤ width := by
  induction width generalizing n with
  | zero => simp [sigBytes]
  | succ w ih =>
    unfold sigBytes
    split_ifs
    · omega
    · have := ih (n / 256)
      omega

theorem sigBytes_pos (width n : Nat) (hn : n ≠ 0) : 0 < sigBytes (width + 1) n := by
  unfold sigBytes
  simp [hn]

theorem lt_pow_sigBytes (width n : Nat) (h : n < 256 ^ width) : n < 256 ^ sigBytes width n := by
  induction width generalizing n with
  | zero => simpa [sigBytes] using h
  | succ w ih =>
    unfold sigBytes
    split_ifs with h0
    · subst h0
      simp
    · have hdiv : n / 256 < 256 ^ w := by
        rw [Nat.div_lt_iff_lt_mul (by norm_num)]
        rw [pow_succ] at h
        exact h
      have h1 := ih (n / 256) hdiv
      rw [pow_succ]
      have h2 := Nat.div_add_mod n 256
      have h3 := Nat.mod_lt n (show 256 > 0 by norm_num)
      nlinarith

theorem length_encodeUint (n : Nat) : 1 ≤ (encodeUint n).length ∧ (encodeUint n).length ≤ 9 := by
  unfold encodeUint
  split_ifs
  · simp
  · have := sigBytes_le 8 n
    simp [length_bigEndianBytes]
    omega

theorem decodeUint_encodeUint (n : Nat) (rest : List Nat) (h : n < 2 ^ 64) :
    decodeUint (encodeUint n ++ rest) = .ok (n, rest) := by
  unfold encodeUint
  split_ifs with h7
  · simp [decodeUint, h7]
  · have hle := sigBytes_le 8 n
    have hpos := sigBytes_pos 7 n (by omega)
    have hlt := lt_pow_sigBytes 8 n (by norm_num at h ⊢; exact h)
    have hsub : 256 - (256 - sigBytes 8 n) = sigBytes 8 n := by omega
    have hlen : (bigEndianBytes (sigBytes 8 n) n).length = sigBytes 8 n :=
      length_bigEndianBytes _ _
    simp only [List.cons_append, decodeUint, hsub]
    rw [if_neg (by omega), if_neg (by omega), if_neg (by simp [hlen])]
    rw [List.take_left' hlen, List.drop_left' hlen, bytesToNat_bigEndianBytes,
      Nat.mod_eq_of_lt hlt]

theorem decodeInt_encodeInt (i : Int) (rest : List Nat) (h : inInt i) :
    decodeInt (encodeInt i ++ rest) = .ok (i, rest) := by
  unfold inInt at h
  unfold encodeInt decodeInt
  split_ifs with hneg
  · have hw : (wrapUint (2 * (-i - 1)) : Int) = 2 * (-i - 1) :=
      wrapUint_of_range (by omega) (by omega)
    rw [decodeUint_encodeUint _ _ (by omega)]
    simp only
    rw [if_pos (by omega)]
    congr 2
    omega
  · have hw : (wrapUint (2 * i) : Int) = 2 * i := wrapUint_of_range (by omega) (by omega)
    rw [decodeUint_encodeUint _ _ (by omega)]
    simp only
    rw [if_neg (by omega)]
    congr 2
    omega

/-! ## Block codec: fields -/

theorem decodeByteSlice_encode (l rest : List Nat) (hne : l ≠ []) (hlen : l.length < tooBig) :
    decodeByteSlice (encodeUint l.length ++ l ++ rest) = .ok (.mk l, rest) := by
  have h64 : l.length < 2 ^ 64 := by
    unfold tooBig at hlen
    omega
  have hpos : l.length ≠ 0 := by
    intro h0
    exact hne (List.length_eq_zero.mp h0)
  unfold decodeByteSlice
  rw [List.append_assoc, decodeUint_encodeUint _ _ h64]
  simp only
  rw [if_neg (by simp; omega), if_neg hpos, List.take_left' rfl, List.drop_left' rfl]

theorem decodeField_encode (idx : Int) (v : FieldValue) (b : Block) (rest : List Nat)
    (hfit : v.fits idx) (hnz : v.isZero = false) (hlen : v.encode.length < tooBig) :
    decodeField idx b (v.encode ++ rest) = .ok (b.store idx v, rest) := by
  cases v with
  | int i =>
    obtain ⟨hidx, hi⟩ := hfit
    rcases hidx with h | h <;> subst h <;>
      simp [decodeField, FieldValue.encode, Block.store, decodeInt_encodeInt i rest hi]
  | uint n =>
    obtain ⟨hidx, hn⟩ := hfit
    rcases hidx with h | h <;> subst h <;>
      simp [decodeField, FieldValue.encode, Block.store, decodeUint_encodeUint n rest hn]
  | bytes s =>
    cases s with
    | nil => simp [FieldValue.isZero, ByteSlice.len, ByteSlice.toList] at hnz
    | mk l =>
      have hne : l ≠ [] := by
        intro h0
        subst h0
        simp [FieldValue.isZero, ByteSlice.len, ByteSlice.toList] at hnz
      have hl : l.length < tooBig := by
        simp only [FieldValue.encode, ByteSlice.len, ByteSlice.toList, List.length_append] at hlen
        omega
      have hdec := decodeByteSlice_encode l rest hne hl
      rw [List.append_assoc] at hdec
      rcases hfit with h | h | h <;> subst h <;>
        simp [decodeField, FieldValue.encode, Block.store, ByteSlice.len, ByteSlice.toList, hdec]

theorem decodeFields_succ (fuel : Nat) (fieldnum : Int) (b : Block) (bs : List Nat)
    (hne : bs ≠ []) :
    decodeFields (fuel + 1) fieldnum b bs =
      match decodeUint bs with
      | .error e => .error e
      | .ok (delta, rest) =>
        if 2 ^ 63 ≤ delta then .error ⟨"decode: corrupted data: negative delta"⟩
        else if delta = 0 then .ok b
        else if fieldnum ≥ 7 - (delta : Int) then
          .error ⟨"gob: bad data: field numbers out of bounds"⟩
        else
          match decodeField (fieldnum + delta) b rest with
          | .error e => .error e
          | .ok (b', rest') => decodeFields fuel (fieldnum + delta) b' rest' := by
  cases bs with
  | nil => exact absurd rfl hne
  | cons x xs => rfl

theorem decodeFields_encodeFields (vs : List FieldValue) :
    ∀ (idx fieldnum : Int) (acc : Block) (fuel : Nat),
      -1 ≤ fieldnum → fieldnum < idx → idx + vs.length = 7 → fitsAll vs idx →
      (encodeFields vs idx fieldnum).length ≤ fuel →
      (encodeFields vs idx fieldnum).length < tooBig →
      decodeFields fuel fieldnum acc (encodeFields vs idx fieldnum) =
        .ok (storeAll vs idx acc) := by
  induction vs with
  | nil =>
    intro idx fieldnum acc fuel _ _ _ _ hfuel _
    simp only [encodeFields, List.length_singleton] at hfuel
    obtain ⟨f, rfl⟩ : ∃ f, fuel = f + 1 := ⟨fuel - 1, by omega⟩
    simp [encodeFields, decodeFields, decodeUint, storeAll]
  | cons v vs ih =>
    intro idx fieldnum acc fuel hlo hlt hcount hfits hfuel hbig
    obtain ⟨hfit, hfits⟩ := hfits
    simp only [List.length_cons, Nat.cast_add, Nat.cast_one] at hcount
    by_cases hz : v.isZero = true
    · simp only [encodeFields, hz, if_true] at hfuel hbig ⊢
      simp only [storeAll, hz, if_true]
      exact ih (idx + 1) fieldnum acc fuel hlo (by omega) (by omega) hfits hfuel hbig
    · have hz2 : v.isZero = false := by simpa using hz
      simp only [encodeFields, hz2, Bool.false_eq_true, if_false, List.length_append]
        at hfuel hbig ⊢
      simp only [storeAll, hz2, Bool.false_eq_true, if_false]
      have hu := length_encodeUint (idx - fieldnum).toNat
      obtain ⟨f, rfl⟩ : ∃ f, fuel = f + 1 := ⟨fuel - 1, by omega⟩
      have hne : encodeUint (idx - fieldnum).toNat ++ v.encode ++
          encodeFields vs (idx + 1) idx ≠ [] := by
        intro h0
        have := congrArg List.length h0
        simp only [List.length_append, List.length_nil] at this
        omega
      rw [decodeFields_succ _ _ _ _ hne, List.append_assoc,
        decodeUint_encodeUint _ _ (by omega)]
      simp only
      have hd : fieldnum + ((idx - fieldnum).toNat : Int) = idx := by omega
      rw [if_neg (by omega), if_neg (by omega), if_neg (by omega), hd,
        decodeField_encode idx v acc _ hfit hz2 (by omega)]
      simp only
      exact ih (idx + 1) idx _ f (by omega) (by omega) (by omega) hfits (by omega) (by omega)

/-! ## Block codec: messages -/

theorem length_encodeInt (i : Int) : 1 ≤ (encodeInt i).length ∧ (encodeInt i).length ≤ 9 := by
  unfold encodeInt
  split_ifs <;> exact length_encodeUint _

theorem recvMessage_frame (body rest : List Nat) (h : body.length < tooBig) :
    recvMessage (encodeUint body.length ++ body ++ rest) = .ok (body, rest) := by
  have h64 : body.length < 2 ^ 64 := by
    unfold tooBig at h
    omega
  unfold recvMessage
  rw [List.append_assoc, decodeUint_encodeUint _ _ h64]
  simp only
  rw [if_neg (by omega), if_neg (by simp), List.take_left' rfl, List.drop_left' rfl]

theorem length_fieldType (name : String) (id : Nat) :
    (fieldType name id).length ≤ 21 + name.length := by
  have h1 := (length_encodeUint (nameBytes name).length).2
  have h2 := (length_encodeInt id).2
  have h3 : (nameBytes name).length = name.length := by simp [nameBytes]
  simp only [fieldType, List.length_append, List.length_singleton]
  omega

theorem length_typeMessage (typeId : Nat) :
    (encodeInt (-(typeId : Int)) ++ blockWireType typeId).length < tooBig := by
  have h0 := (length_encodeInt (-(typeId : Int))).2
  have h1 := (length_encodeUint (nameBytes "Block").length).2
  have h2 := (length_encodeInt typeId).2
  have h3 : (nameBytes "Block").length = 5 := rfl
  have f1 := length_fieldType "Timestamp" 2
  have f2 := length_fieldType "Data" 5
  have f3 := length_fieldType "PreviousBlockHash" 5
  have f4 := length_fieldType "Hash" 5
  have f5 := length_fieldType "TargetBits" 3
  have f6 := length_fieldType "Nonce" 3
  have f7 := length_fieldType "Height" 2
  have n1 : ("Timestamp" : String).length = 9 := rfl
  have n2 : ("Data" : String).length = 4 := rfl
  have n3 : ("PreviousBlockHash" : String).length = 17 := rfl
  have n4 : ("Hash" : String).length = 4 := rfl
  have n5 : ("TargetBits" : String).length = 10 := rfl
  have n6 : ("Nonce" : String).length = 5 := rfl
  have n7 : ("Height" : String).length = 6 := rfl
  simp only [blockWireType, List.length_append, List.length_cons, List.length_nil, tooBig]
  omega

theorem fitsAll_fields (b : Block) (h : b.wf) : fitsAll b.fields 0 := by
  obtain ⟨h1, h2, h3, h4, -⟩ := h
  simp only [Block.fields, fitsAll, FieldValue.fits]
  norm_num
  exact ⟨h1, h2, h3, h4⟩

theorem storeAll_fields (b : Block) : storeAll b.fields 0 zeroBlock = b.nilEmpty := by
  rcases b with ⟨ts, data, prev, hash, tb, nonce, height⟩
  simp only [Block.fields, storeAll, FieldValue.isZero, Block.store, Block.nilEmpty, zeroBlock]
  norm_num
  by_cases h1 : ts = 0 <;> by_cases h2 : data.len = 0 <;> by_cases h3 : prev.len = 0 <;>
    by_cases h4 : hash.len = 0 <;> by_cases h5 : tb = 0 <;> by_cases h6 : nonce = 0 <;>
    by_cases h7 : height = 0 <;> simp [h1, h2, h3, h4, h5, h6, h7]

theorem gobDecode_gobEncode (typeId : Nat) (b : Block) (hpos : firstUserId ≤ typeId)
    (hid : typeId < 2 ^ 31) (hwf : b.wf) (hsize : (valueBody typeId b).length < tooBig) :
    ∃ bytes, gobEncode typeId b = .ok bytes ∧ gobDecode bytes = .ok b.nilEmpty := by
  have htype := length_typeMessage typeId
  have h64 : 64 ≤ typeId := hpos
  have hin : inInt (typeId : Int) := by
    unfold inInt
    omega
  have hneg : inInt (-(typeId : Int)) := by
    unfold inInt
    omega
  have hfields : (encodeFields b.fields 0 (-1)).length < tooBig := by
    simp only [valueBody, List.length_append] at hsize
    omega
  refine ⟨encodeUint (encodeInt (-(typeId : Int)) ++ blockWireType typeId).length ++
      (encodeInt (-(typeId : Int)) ++ blockWireType typeId) ++
      (encodeUint (valueBody typeId b).length ++ valueBody typeId b), ?_, ?_⟩
  · simp only [gobEncode, writeMessage]
    rw [if_neg (by omega)]
    simp only
    rw [if_neg (by omega)]
  · unfold gobDecode
    rw [recvMessage_frame _ _ htype]
    simp only
    rw [decodeInt_encodeInt _ _ hneg]
    simp only
    have hback : (- -(typeId : Int)).toNat = typeId := by omega
    rw [if_neg (by omega), if_neg (by simp only [firstUserId]; omega), hback,
      if_neg (by simp)]
    have hframe := recvMessage_frame (valueBody typeId b) [] hsize
    rw [List.append_nil] at hframe
    rw [hframe]
    simp only
    unfold valueBody
    rw [decodeInt_encodeInt _ _ hin]
    simp only
    rw [if_neg (by omega),
      decodeFields_encodeFields b.fields 0 (-1) zeroBlock _ (le_refl _) (by norm_num)
        (by simp [Block.fields]) (fitsAll_fields b hwf) (le_refl _) hfields,
      storeAll_fields]

theorem length_valueBody_ge (typeId : Nat) (b : Block) (h : 0 < b.Data.len) :
    b.Data.len ≤ (valueBody typeId b).length := by
  have hz : (FieldValue.bytes b.Data).isZero = false := by
    simp only [FieldValue.isZero, decide_eq_false_iff_not]
    omega
  have hl : b.Data.toList.length = b.Data.len := rfl
  unfold valueBody Block.fields
  by_cases h0 : (FieldValue.int b.Timestamp).isZero = true
  · simp only [encodeFields, h0, hz, if_true, Bool.false_eq_true, if_false,
      List.length_append, FieldValue.encode, hl]
    omega
  · simp only [encodeFields, h0, hz, Bool.false_eq_true, if_false,
      List.length_append, FieldValue.encode, hl]
    omega

theorem Serialize_too_big (typeId : Nat) (b : Block) (h : tooBig ≤ b.Data.len) :
    Serialize typeId b = (.nil, some ⟨"gob: encoder: message too big"⟩) := by
  have hpos : 0 < b.Data.len := by
    unfold tooBig at h
    omega
  have hlen := length_valueBody_ge typeId b hpos
  have htype := length_typeMessage typeId
  simp only [Serialize, gobEncode, writeMessage]
  rw [if_neg (by omega)]
  simp only
  rw [if_pos (by omega)]

/-- C3 fails as stated.  The genesis block built by `NewGenesisBlock` has an
empty, non-nil `PreviousBlockHash`; it is well formed, `Serialize` and
`DeserializeBlock` both succeed on it, and the block that comes back has a nil
`PreviousBlockHash`, so it is not the block that went in.  And `Serialize`
does not succeed on every block: on a block with a payload of `2^33` bytes the
encoder reports an error. -/
theorem roundtrip_counterexample :
    (NewGenesisBlock sampleMiner 100 (.mk [83, 78]) = (some sampleGenesis, none) ∧
      sampleGenesis.wf ∧
      (Serialize 65 sampleGenesis).2 = none ∧
      DeserializeBlock (Serialize 65 sampleGenesis).1 =
        (some { sampleGenesis with PreviousBlockHash := .nil }, none) ∧
      sampleGenesis.PreviousBlockHash = .mk [] ∧
      DeserializeBlock (Serialize 65 sampleGenesis).1 ≠ (some sampleGenesis, none)) ∧
    (hugeBlock.wf ∧ (Serialize 65 hugeBlock).2 ≠ none) := by
  refine ⟨⟨by decide, by decide, by decide, by decide, rfl, by decide⟩, ?_, ?_⟩
  · refine ⟨by decide, by decide, by decide, by decide, ?_, by decide, by decide⟩
    intro x hx
    have : x = 0 := (List.mem_replicate.mp hx).2
    omega
  · have hlen : tooBig ≤ hugeBlock.Data.len := by
      show 2 ^ 33 ≤ (List.replicate (2 ^ 33) 0).length
      rw [List.length_replicate]
    rw [Serialize_too_big 65 hugeBlock hlen]
    simp

/-- C3 as amended: for every well-formed block `b` whose value message stays
below gob's size limit, and under every type id that gob can grant to `Block`
(from `firstUserId` on), `Serialize(b)` succeeds and `DeserializeBlock` applied
to its output succeeds and returns a block with the same `Timestamp`,
`TargetBits`, `Nonce` and `Height` and with the same bytes in `Data`,
`PreviousBlockHash` and `Hash`; an empty non-nil slice comes back as the nil
slice, and a block without such a slice comes back equal in all seven
fields. -/
theorem Serialize_DeserializeBlock_roundtrip (typeId : Nat) (b : Block)
    (hpos : firstUserId ≤ typeId) (hid : typeId < 2 ^ 31) (hwf : b.wf)
    (hsize : (valueBody typeId b).length < tooBig) :
    ∃ bytes b',
      Serialize typeId b = (.mk bytes, none) ∧
      DeserializeBlock (.mk bytes) = (some b', none) ∧
      b'.Timestamp = b.Timestamp ∧ b'.TargetBits = b.TargetBits ∧ b'.Nonce = b.Nonce ∧
      b'.Height = b.Height ∧ b'.Data.toList = b.Data.toList ∧
      b'.PreviousBlockHash.toList = b.PreviousBlockHash.toList ∧
      b'.Hash.toList = b.Hash.toList ∧ b' = b.nilEmpty ∧
      (b.Data ≠ .mk [] → b.PreviousBlockHash ≠ .mk [] → b.Hash ≠ .mk [] → b' = b) := by
  obtain ⟨bytes, henc, hdec⟩ := gobDecode_gobEncode typeId b hpos hid hwf hsize
  have hnil : ∀ s : ByteSlice, (if s.len = 0 then ByteSlice.nil else s).toList = s.toList := by
    intro s
    cases s with
    | nil => simp [ByteSlice.len, ByteSlice.toList]
    | mk l =>
      cases l with
      | nil => simp [ByteSlice.len, ByteSlice.toList]
      | cons x xs => simp [ByteSlice.len, ByteSlice.toList]
  have hkeep : ∀ s : ByteSlice, s ≠ .mk [] → (if s.len = 0 then ByteSlice.nil else s) = s := by
    intro s hs
    cases s with
    | nil => simp
    | mk l =>
      cases l with
      | nil => exact absurd rfl hs
      | cons x xs => simp [ByteSlice.len, ByteSlice.toList]
  refine ⟨bytes, b.nilEmpty, ?_, ?_, rfl, rfl, rfl, rfl, hnil _, hnil _, hnil _, rfl, ?_⟩
  · simp only [Serialize, henc]
  · simp only [DeserializeBlock, ByteSlice.toList, hdec]
  · intro h1 h2 h3
    rcases b with ⟨ts, data, prev, hash, tb, nonce, height⟩
    simp only [Block.nilEmpty]
    rw [hkeep data h1, hkeep prev h2, hkeep hash h3]

theorem Serialize_DeserializeBlock_roundtrip_witness :
    ∃ bytes b',
      Serialize 65 sampleMinedChild = (.mk bytes, none) ∧
      DeserializeBlock (.mk bytes) = (some b', none) ∧
      b'.Timestamp = sampleMinedChild.Timestamp ∧ b'.TargetBits = sampleMinedChild.TargetBits ∧
      b'.Nonce = sampleMinedChild.Nonce ∧ b'.Height = sampleMinedChild.Height ∧
      b'.Data.toList = sampleMinedChild.Data.toList ∧
      b'.PreviousBlockHash.toList = sampleMinedChild.PreviousBlockHash.toList ∧
      b'.Hash.toList = sampleMinedChild.Hash.toList ∧ b' = sampleMinedChild.nilEmpty ∧
      (sampleMinedChild.Data ≠ .mk [] → sampleMinedChild.PreviousBlockHash ≠ .mk [] →
        sampleMinedChild.Hash ≠ .mk [] → b' = sampleMinedChild) :=
  Serialize_DeserializeBlock_roundtrip 65 sampleMinedChild (by decide) (by decide) (by decide)
    (by decide)

/-! ## Chains -/

theorem wrapInt_succ (i : Int) : wrapInt (wrapInt i + 1) = wrapInt (i + 1) := by
  unfold wrapInt
  omega

theorem NewBlock_sealed (doWork : Miner) (nowAdj nowStamp : Int) (d : ByteSlice)
    (P B : Block) (h : NewBlock doWork nowAdj nowStamp d (some P) = .done (some B, none)) :
    ∃ difficulty, getDifficulty nowAdj (some P) = .done difficulty ∧
      (doWork (newBlockLiteral nowStamp d difficulty P)).2.2 = none ∧
      B = { newBlockLiteral nowStamp d difficulty P with
            Hash := (doWork (newBlockLiteral nowStamp d difficulty P)).2.1
            Nonce := (doWork (newBlockLiteral nowStamp d difficulty P)).1 } := by
  obtain ⟨difficulty, hd, hn⟩ := NewBlock_some doWork nowAdj nowStamp d P
  rw [hn] at h
  obtain ⟨hB, herr⟩ := mineAndSeal_ok (Exec.done.inj h)
  exact ⟨difficulty, hd, herr, hB⟩

theorem extendChain_steps (calls : List Call) :
    ∀ (prev : Block) (bs : List Block), extendChain prev calls = some bs →
      bs.length = calls.length ∧
      ∀ (i : Nat) (c : Call) (p b : Block),
        calls[i]? = some c → (prev :: bs)[i]? = some p → bs[i]? = some b →
          NewBlock c.doWork c.nowAdj c.nowStamp c.data (some p) = .done (some b, none) := by
  induction calls with
  | nil =>
    intro prev bs h
    simp only [extendChain, Option.some.injEq] at h
    subst h
    exact ⟨rfl, by intro i c p b hc; simp at hc⟩
  | cons c cs ih =>
    intro prev bs h
    unfold extendChain at h
    split at h
    · rename_i b hnew
      split at h
      · rename_i bs' hrest
        simp only [Option.some.injEq] at h
        subst h
        obtain ⟨hlen, hsteps⟩ := ih b bs' hrest
        refine ⟨by simp [hlen], ?_⟩
        intro i c' p b' hc hp hb
        cases i with
        | zero =>
          simp only [List.getElem?_cons_zero, Option.some.injEq] at hc hp hb
          subst hc hp hb
          exact hnew
        | succ j =>
          simp only [List.getElem?_cons_succ] at hc hp hb
          exact hsteps j c' p b' hc hp hb
      · simp at h
    · simp at h

theorem buildChain_steps (genesis : Call) (calls : List Call) (chain : List Block)
    (h : buildChain genesis calls = some chain) :
    chain.length = calls.length + 1 ∧
    (∃ g, chain[0]? = some g ∧
      NewGenesisBlock genesis.doWork genesis.nowStamp genesis.data = (some g, none)) ∧
    ∀ (i : Nat) (c : Call) (p b : Block),
      calls[i]? = some c → chain[i]? = some p → chain[i + 1]? = some b →
        NewBlock c.doWork c.nowAdj c.nowStamp c.data (some p) = .done (some b, none) := by
  unfold buildChain at h
  split at h
  · rename_i g hg
    split at h
    · rename_i bs hrest
      simp only [Option.some.injEq] at h
      subst h
      obtain ⟨hlen, hsteps⟩ := extendChain_steps calls g bs hrest
      refine ⟨by simp [hlen], ⟨g, List.getElem?_cons_zero, hg⟩, ?_⟩
      intro i c p b hc hp hb
      rw [List.getElem?_cons_succ] at hb
      exact hsteps i c p b hc hp hb
    · simp at h
  · simp at h

theorem chain_induction (Q : Nat → Block → Prop) (genesis : Call) (calls : List Call)
    (chain : List Block) (h : buildChain genesis calls = some chain)
    (h0 : ∀ g, NewGenesisBlock genesis.doWork genesis.nowStamp genesis.data = (some g, none) →
      Q 0 g)
    (hstep : ∀ (i : Nat) (c : Call) (p b : Block), calls[i]? = some c → Q i p →
      NewBlock c.doWork c.nowAdj c.nowStamp c.data (some p) = .done (some b, none) →
      Q (i + 1) b) :
    ∀ (i : Nat) (b : Block), chain[i]? = some b → Q i b := by
  obtain ⟨hlen, ⟨g, hg0, hg⟩, hsteps⟩ := buildChain_steps genesis calls chain h
  intro i
  induction i with
  | zero =>
    intro b hb
    rw [hg0] at hb
    exact Option.some.inj hb ▸ h0 g hg
  | succ j ih =>
    intro b hb
    have hj : j + 1 < chain.length := by
      by_contra hge
      rw [List.getElem?_eq_none (by omega)] at hb
      simp at hb
    have hp : chain[j]? = some chain[j] := List.getElem?_eq_getElem (by omega)
    have hc : calls[j]? = some calls[j] := List.getElem?_eq_getElem (by omega)
    exact hstep j _ _ b hc (ih _ hp) (hsteps j _ _ b hc hp hb)

/-- C11: on every chain built by one successful `NewGenesisBlock` followed by
successive successful `NewBlock` calls, the block at position `i` has height
`i` (the Go `int` value of the counter, which is `i` itself below `2^63`), and
every block after the first carries the hash of the block before it as its
`PreviousBlockHash`. -/
theorem chain_heights_and_links (genesis : Call) (calls : List Call) (chain : List Block)
    (h : buildChain genesis calls = some chain) :
    (∀ (i : Nat) (b : Block), chain[i]? = some b →
      b.Height = wrapInt i ∧ (i < 2 ^ 63 → b.Height = i)) ∧
    (∀ (i : Nat) (p b : Block), chain[i]? = some p → chain[i + 1]? = some b →
      b.PreviousBlockHash = p.Hash) := by
  have hheight : ∀ (i : Nat) (b : Block), chain[i]? = some b → b.Height = wrapInt i := by
    refine chain_induction (fun i b => b.Height = wrapInt i) genesis calls chain h ?_ ?_
    · intro g hg
      have hs := (mineAndSeal_ok hg).1
      subst hs
      rfl
    · intro i c p b _ hp hnew
      have hb := NewBlock_links_height c.doWork c.nowAdj c.nowStamp c.data p b hnew
      rw [hb, hp]
      push_cast
      exact wrapInt_succ i
  refine ⟨?_, ?_⟩
  · intro i b hb
    refine ⟨hheight i b hb, ?_⟩
    intro hi
    rw [hheight i b hb]
    exact wrapInt_of_inInt (by unfold inInt; omega)
  · intro i p b hp hb
    obtain ⟨hlen, -, hsteps⟩ := buildChain_steps genesis calls chain h
    have hi : i + 1 < chain.length := by
      by_contra hge
      rw [List.getElem?_eq_none (by omega)] at hb
      simp at hb
    have hc : calls[i]? = some calls[i] := List.getElem?_eq_getElem (by omega)
    obtain ⟨difficulty, -, -, hB⟩ :=
      NewBlock_sealed _ _ _ _ p b (hsteps i _ p b hc hp hb)
    subst hB
    rfl

theorem chain_heights_and_links_witness :
    buildChain (callWith 11 [0, 1] 100) [callWith 12 [0, 2] 107, callWith 13 [0, 3] 113] =
        some sampleChain ∧
      ((chainBlock 113 [0, 2] [0, 3] 8 13 2).Height = wrapInt (2 : Nat) ∧
        ((2 : Nat) < 2 ^ 63 → (chainBlock 113 [0, 2] [0, 3] 8 13 2).Height = (2 : Nat))) ∧
      (chainBlock 113 [0, 2] [0, 3] 8 13 2).PreviousBlockHash =
        (chainBlock 107 [0, 1] [0, 2] 8 12 1).Hash :=
  ⟨by decide,
    (chain_heights_and_links (callWith 11 [0, 1] 100)
      [callWith 12 [0, 2] 107, callWith 13 [0, 3] 113] sampleChain (by decide)).1 2 _ rfl,
    (chain_heights_and_links (callWith 11 [0, 1] 100)
      [callWith 12 [0, 2] 107, callWith 13 [0, 3] 113] sampleChain (by decide)).2 1 _ _ rfl rfl⟩

/-! ## Frame of the mining step -/

theorem mineAndSeal_frame (doWork : Miner) (cand B : Block)
    (h : mineAndSeal doWork cand = (some B, none)) :
    (doWork cand).2.2 = none ∧ B.Hash = (doWork cand).2.1 ∧ B.Nonce = (doWork cand).1 ∧
      B.Timestamp = cand.Timestamp ∧ B.Data = cand.Data ∧
      B.PreviousBlockHash = cand.PreviousBlockHash ∧ B.TargetBits = cand.TargetBits ∧
      B.Height = cand.Height := by
  obtain ⟨hB, herr⟩ := mineAndSeal_ok h
  subst hB
  exact ⟨herr, rfl, rfl, rfl, rfl, rfl, rfl, rfl⟩

theorem mineAndSeal_congr (doWork doWork' : Miner) (cand : Block)
    (h : doWork' cand = doWork cand) : mineAndSeal doWork' cand = mineAndSeal doWork cand := by
  unfold mineAndSeal
  rw [h]

/-- C12: in `NewBlock` and `NewGenesisBlock` the block handed to mining (the
only block on which `DoWork` is consulted) has `Nonce` 0 and an empty `Hash`;
the returned block has the hash and nonce that `DoWork` returned for it, and
its `Timestamp`, `Data`, `PreviousBlockHash`, `TargetBits` and `Height` are
those of the block that was mined. -/
theorem mining_changes_only_hash_and_nonce (doWork : Miner) (nowAdj nowStamp : Int)
    (d : ByteSlice) (P : Block) :
    (∃ difficulty cand,
      getDifficulty nowAdj (some P) = .done difficulty ∧
      cand = newBlockLiteral nowStamp d difficulty P ∧
      cand.Nonce = 0 ∧ cand.Hash = .mk [] ∧ cand.Hash.len = 0 ∧
      (∀ doWork' : Miner, doWork' cand = doWork cand →
        NewBlock doWork' nowAdj nowStamp d (some P) =
          NewBlock doWork nowAdj nowStamp d (some P)) ∧
      (∀ B : Block, NewBlock doWork nowAdj nowStamp d (some P) = .done (some B, none) →
        (doWork cand).2.2 = none ∧ B.Hash = (doWork cand).2.1 ∧ B.Nonce = (doWork cand).1 ∧
        B.Timestamp = cand.Timestamp ∧ B.Data = cand.Data ∧
        B.PreviousBlockHash = cand.PreviousBlockHash ∧ B.TargetBits = cand.TargetBits ∧
        B.Height = cand.Height)) ∧
    (∃ cand,
      cand = genesisLiteral nowStamp d ∧
      cand.Nonce = 0 ∧ cand.Hash = .mk [] ∧ cand.Hash.len = 0 ∧
      (∀ doWork' : Miner, doWork' cand = doWork cand →
        NewGenesisBlock doWork' nowStamp d = NewGenesisBlock doWork nowStamp d) ∧
      (∀ B : Block, NewGenesisBlock doWork nowStamp d = (some B, none) →
        (doWork cand).2.2 = none ∧ B.Hash = (doWork cand).2.1 ∧ B.Nonce = (doWork cand).1 ∧
        B.Timestamp = cand.Timestamp ∧ B.Data = cand.Data ∧
        B.PreviousBlockHash = cand.PreviousBlockHash ∧ B.TargetBits = cand.TargetBits ∧
        B.Height = cand.Height)) := by
  constructor
  · obtain ⟨difficulty, hd, hn⟩ := NewBlock_some doWork nowAdj nowStamp d P
    refine ⟨difficulty, _, hd, rfl, rfl, rfl, rfl, ?_, ?_⟩
    · intro doWork' hsame
      obtain ⟨difficulty', hd', hn'⟩ := NewBlock_some doWork' nowAdj nowStamp d P
      rw [hd] at hd'
      have hdd := Exec.done.inj hd'
      subst hdd
      rw [hn, hn', mineAndSeal_congr doWork doWork' _ hsame]
    · intro B hB
      rw [hn] at hB
      exact mineAndSeal_frame doWork _ B (Exec.done.inj hB)
  · refine ⟨_, rfl, rfl, rfl, rfl, ?_, ?_⟩
    · intro doWork' hsame
      exact mineAndSeal_congr doWork doWork' _ hsame
    · intro B hB
      exact mineAndSeal_frame doWork _ B hB

theorem mining_changes_only_hash_and_nonce_witness :
    NewGenesisBlock sampleMiner 100 (.mk [83, 78]) = (some sampleGenesis, none) ∧
      sampleGenesis.Hash = (sampleMiner (genesisLiteral 100 (.mk [83, 78]))).2.1 ∧
      sampleGenesis.Nonce = (sampleMiner (genesisLiteral 100 (.mk [83, 78]))).1 ∧
      sampleGenesis.Timestamp = (genesisLiteral 100 (.mk [83, 78])).Timestamp ∧
      sampleGenesis.TargetBits = (genesisLiteral 100 (.mk [83, 78])).TargetBits := by
  obtain ⟨cand, hc, -, -, -, -, hframe⟩ :=
    (mining_changes_only_hash_and_nonce sampleMiner 100 100 (.mk [83, 78])
      (sampleBlock 4 8 100)).2
  subst hc
  obtain ⟨-, h1, h2, h3, -, -, h4, -⟩ := hframe sampleGenesis (by decide)
  exact ⟨by decide, h1, h2, h3, h4⟩

/-! ## The difficulty policy as written -/

theorem getAdjustedDifficulty_of_timediff (now : Int) (P : Block)
    (hno : inInt (P.Timestamp - now)) :
    (P.Timestamp - now > 10 →
      getAdjustedDifficulty now P = wrapUint ((P.TargetBits : Int) - 8)) ∧
    (P.Timestamp - now < 10 →
      getAdjustedDifficulty now P = wrapUint ((P.TargetBits : Int) + 8)) ∧
    (P.Timestamp - now = 10 → getAdjustedDifficulty now P = P.TargetBits) := by
  unfold getAdjustedDifficulty blockGenerationInterval
  simp only [wrapInt_of_inInt hno]
  refine ⟨?_, ?_, ?_⟩
  · intro h
    rw [if_pos h]
  · intro h
    rw [if_neg (by omega), if_pos h]
  · intro h
    rw [if_neg (by omega), if_neg (by omega)]

theorem wrapUint_steps_distinct (t : Nat) (h : inUint t) :
    wrapUint ((t : Int) - 8) ≠ wrapUint ((t : Int) + 8) ∧ wrapUint ((t : Int) - 8) ≠ t ∧
      wrapUint ((t : Int) + 8) ≠ t := by
  unfold inUint at h
  unfold wrapUint
  refine ⟨?_, ?_, ?_⟩ <;> omega

/-- C16 fails as stated: the subtraction `lastBlock.Timestamp - now` is an
`int64` subtraction and wraps.  For a parent stamped at the smallest `int64`
and the clock at 1700000000 the timestamp is not later than the current time,
yet `timediff` is positive and the code returns `TargetBits - 8`. -/
theorem timediff_overflow_counterexample :
    inInt (sampleBlock 5 16 (-(2 ^ 63))).Timestamp ∧ inInt 1700000000 ∧
      (sampleBlock 5 16 (-(2 ^ 63))).Timestamp ≤ 1700000000 ∧
      wrapInt ((sampleBlock 5 16 (-(2 ^ 63))).Timestamp - 1700000000) > 0 ∧
      getAdjustedDifficulty 1700000000 (sampleBlock 5 16 (-(2 ^ 63))) = 8 ∧
      getAdjustedDifficulty 1700000000 (sampleBlock 5 16 (-(2 ^ 63))) ≠
        wrapUint (((sampleBlock 5 16 (-(2 ^ 63))).TargetBits : Int) + 8) := by
  decide

/-- C16 as amended: when the subtraction `lastBlock.Timestamp - now` does not
overflow, a parent whose timestamp is not later than the current time gives a
`timediff` that is never positive and `getAdjustedDifficulty` returns
`TargetBits + 8` (modulo the `uint` width); the result is `TargetBits - 8`
exactly when the parent's timestamp is more than 10 seconds in the future and
`TargetBits` unchanged exactly when it is 10 seconds in the future (with
`TargetBits` a `uint`, below `2^64`).  So every recomputation on a parent with
a non-future timestamp raises the difficulty. -/
theorem getAdjustedDifficulty_as_written (now : Int) (P : Block)
    (hno : inInt (P.Timestamp - now)) (htb : inUint P.TargetBits) :
    (P.Timestamp ≤ now →
      wrapInt (P.Timestamp - now) ≤ 0 ∧
      getAdjustedDifficulty now P = wrapUint ((P.TargetBits : Int) + 8) ∧
      (((5 : Int) ∣ P.Height ∧ P.Height ≠ 0) →
        getDifficulty now (some P) = .done (wrapUint ((P.TargetBits : Int) + 8)))) ∧
    (getAdjustedDifficulty now P = wrapUint ((P.TargetBits : Int) - 8) ↔
      P.Timestamp - now > 10) ∧
    (getAdjustedDifficulty now P = P.TargetBits ↔ P.Timestamp - now = 10) := by
  obtain ⟨hgt, hlt, heq⟩ := getAdjustedDifficulty_of_timediff now P hno
  obtain ⟨d1, d2, d3⟩ := wrapUint_steps_distinct P.TargetBits htb
  refine ⟨?_, ?_, ?_⟩
  · intro hpast
    have hval := hlt (by omega)
    refine ⟨by rw [wrapInt_of_inInt hno]; omega, hval, ?_⟩
    intro hc
    rw [getDifficulty_at_interval now P hc, hval]
  · constructor
    · intro hres
      by_contra hn
      rcases lt_or_eq_of_le (not_lt.mp hn) with h | h
      · rw [hlt h] at hres
        exact d1 hres.symm
      · rw [heq h] at hres
        exact d2 hres.symm
    · exact hgt
  · constructor
    · intro hres
      by_contra hn
      rcases lt_or_gt_of_ne hn with h | h
      · rw [hlt h] at hres
        exact d3 hres
      · rw [hgt h] at hres
        exact d2 hres
    · exact heq

theorem getAdjustedDifficulty_as_written_witness :
    (inInt ((sampleBlock 5 16 100).Timestamp - 200) ∧ inUint (sampleBlock 5 16 100).TargetBits ∧
      (sampleBlock 5 16 100).Timestamp ≤ 200) ∧
      (wrapInt ((sampleBlock 5 16 100).Timestamp - 200) ≤ 0 ∧
        getAdjustedDifficulty 200 (sampleBlock 5 16 100) =
          wrapUint (((sampleBlock 5 16 100).TargetBits : Int) + 8) ∧
        (((5 : Int) ∣ (sampleBlock 5 16 100).Height ∧ (sampleBlock 5 16 100).Height ≠ 0) →
          getDifficulty 200 (some (sampleBlock 5 16 100)) =
            .done (wrapUint (((sampleBlock 5 16 100).TargetBits : Int) + 8)))) :=
  ⟨by decide,
    (getAdjustedDifficulty_as_written 200 (sampleBlock 5 16 100) (by decide) (by decide)).1
      (by decide)⟩

/-! ## Difficulty along a chain -/

theorem wrapUint_step_dvd (t : Nat) (h : 8 ∣ t) :
    8 ∣ wrapUint ((t : Int) - 8) ∧ 8 ∣ wrapUint ((t : Int) + 8) := by
  unfold wrapUint
  constructor <;> omega

theorem getDifficulty_dvd (now : Int) (P : Block) (t : Nat) (h : 8 ∣ P.TargetBits)
    (ht : getDifficulty now (some P) = .done t) : 8 ∣ t := by
  by_cases hc : (5 : Int) ∣ P.Height ∧ P.Height ≠ 0
  · rw [getDifficulty_at_interval now P hc] at ht
    have hv := Exec.done.inj ht
    obtain ⟨h1, h2⟩ := wrapUint_step_dvd P.TargetBits h
    rcases getAdjustedDifficulty_cases now P with e | e | e <;> rw [← hv, e] <;> assumption
  · rw [getDifficulty_off_interval now P hc] at ht
    exact Exec.done.inj ht ▸ h

/-- C17: on every chain built by `NewGenesisBlock` followed by successive
`NewBlock` calls, whatever the clock readings and the mining results, every
block's `TargetBits` is a multiple of 8, the blocks at positions (heights) 0
to 5 have `TargetBits` exactly 8, and the block at height 6 is the first whose
difficulty is recomputed: its `TargetBits` is `getAdjustedDifficulty` of the
block at height 5, one of 0, 8 and 16. -/
theorem chain_targetBits (genesis : Call) (calls : List Call) (chain : List Block)
    (h : buildChain genesis calls = some chain) :
    (∀ (i : Nat) (b : Block), chain[i]? = some b →
      8 ∣ b.TargetBits ∧ (i ≤ 5 → b.Height = i ∧ b.TargetBits = 8) ∧
      (i < 2 ^ 63 → b.Height ≤ 5 → b.TargetBits = 8)) ∧
    (∀ (c : Call) (p b : Block), calls[5]? = some c → chain[5]? = some p →
      chain[6]? = some b →
        b.Height = 6 ∧ b.TargetBits = getAdjustedDifficulty c.nowAdj p ∧
        (b.TargetBits = 0 ∨ b.TargetBits = 8 ∨ b.TargetBits = 16)) := by
  have hinv : ∀ (i : Nat) (b : Block), chain[i]? = some b →
      8 ∣ b.TargetBits ∧ b.Height = wrapInt i ∧ (i ≤ 5 → b.TargetBits = 8) := by
    refine chain_induction
      (fun i b => 8 ∣ b.TargetBits ∧ b.Height = wrapInt i ∧ (i ≤ 5 → b.TargetBits = 8))
      genesis calls chain h ?_ ?_
    · intro g hg
      have hs := (mineAndSeal_ok hg).1
      subst hs
      exact ⟨⟨1, rfl⟩, rfl, fun _ => rfl⟩
    · intro i c p b _ hp hnew
      obtain ⟨hdvd, hheight, hlow⟩ := hp
      have ht := NewBlock_targetBits c.doWork c.nowAdj c.nowStamp c.data p b hnew
      have hb := NewBlock_links_height c.doWork c.nowAdj c.nowStamp c.data p b hnew
      refine ⟨getDifficulty_dvd c.nowAdj p b.TargetBits hdvd ht, ?_, ?_⟩
      · rw [hb, hheight]
        push_cast
        exact wrapInt_succ i
      · intro hi
        have hpi : p.Height = i := by
          rw [hheight]
          exact wrapInt_of_inInt (by unfold inInt; omega)
        have hc : ¬ ((5 : Int) ∣ p.Height ∧ p.Height ≠ 0) := by
          rw [hpi]
          omega
        rw [getDifficulty_off_interval c.nowAdj p hc] at ht
        rw [← Exec.done.inj ht]
        exact hlow (by omega)
  have hsmall : ∀ i : Nat, i < 2 ^ 63 → wrapInt i = i := by
    intro i hi
    exact wrapInt_of_inInt (by unfold inInt; omega)
  refine ⟨?_, ?_⟩
  · intro i b hb
    obtain ⟨hdvd, hheight, hlow⟩ := hinv i b hb
    refine ⟨hdvd, ?_, ?_⟩
    · intro hi
      exact ⟨by rw [hheight]; exact hsmall i (by omega), hlow hi⟩
    · intro hi h5
      rw [hheight, hsmall i hi] at h5
      exact hlow (by omega)
  · intro c p b hc hp hb
    obtain ⟨-, hpheight, hplow⟩ := hinv 5 p hp
    obtain ⟨-, hbheight, -⟩ := hinv 6 b hb
    have hp5 : p.Height = 5 := by
      rw [hpheight]
      exact hsmall 5 (by norm_num)
    have hb6 : b.Height = 6 := by
      rw [hbheight]
      exact hsmall 6 (by norm_num)
    have hptb := hplow (le_refl 5)
    obtain ⟨-, -, hsteps⟩ := buildChain_steps genesis calls chain h
    have hnew := hsteps 5 c p b hc hp hb
    have ht := NewBlock_targetBits c.doWork c.nowAdj c.nowStamp c.data p b hnew
    rw [getDifficulty_at_interval c.nowAdj p (by rw [hp5]; omega)] at ht
    have hval := (Exec.done.inj ht).symm
    refine ⟨hb6, hval, ?_⟩
    rw [hval]
    rcases getAdjustedDifficulty_cases c.nowAdj p with e | e | e <;> rw [e, hptb]
    · exact Or.inl (by decide)
    · exact Or.inr (Or.inr (by decide))
    · exact Or.inr (Or.inl rfl)

theorem chain_targetBits_witness :
    buildChain (sampleCall 100) (List.replicate 6 (sampleCall 200)) = some sampleLongChain ∧
      (8 ∣ (chainBlock 200 [0, 171] [0, 171] 16 3 6).TargetBits ∧
        (6 ≤ 5 → (chainBlock 200 [0, 171] [0, 171] 16 3 6).Height = (6 : Nat) ∧
          (chainBlock 200 [0, 171] [0, 171] 16 3 6).TargetBits = 8) ∧
        ((6 : Nat) < 2 ^ 63 → (chainBlock 200 [0, 171] [0, 171] 16 3 6).Height ≤ 5 →
          (chainBlock 200 [0, 171] [0, 171] 16 3 6).TargetBits = 8)) ∧
      ((chainBlock 200 [0, 171] [0, 171] 8 3 5).Height = (5 : Nat) ∧
        (chainBlock 200 [0, 171] [0, 171] 8 3 5).TargetBits = 8) :=
  ⟨by decide,
    (chain_targetBits (sampleCall 100) (List.replicate 6 (sampleCall 200)) sampleLongChain
      (by decide)).1 6 _ rfl,
    ((chain_targetBits (sampleCall 100) (List.replicate 6 (sampleCall 200)) sampleLongChain
      (by decide)).1 5 _ rfl).2.1 (le_refl 5)⟩

/-! ## Persistence -/

theorem SaveBlockMetadata_ok (engine : Option GoError) (s s' : MetadataStore)
    (hash : List Nat) (m : BlockMetadata)
    (h : SaveBlockMetadata engine s hash m = (s', none)) :
    s' = { table := (hash, m) :: s.table
           tip := if s.tipAdvancing m then some hash else s.tip } := by
  unfold SaveBlockMetadata at h
  cases engine with
  | some e => simp at h
  | none =>
    simp only [Prod.mk.injEq, and_true] at h
    exact h.symm

/-- C13: after a successful `SaveBlockMetadata(h, m)` on any metadata store,
`RetrieveBlockPathByHash(h)` succeeds and returns exactly `m.location`. -/
theorem retrieve_after_save (engine : Option GoError) (s s' : MetadataStore)
    (hash : List Nat) (m : BlockMetadata)
    (h : SaveBlockMetadata engine s hash m = (s', none)) :
    RetrieveBlockPathByHash s' hash = (m.location, none) := by
  rw [SaveBlockMetadata_ok engine s s' hash m h]
  simp [RetrieveBlockPathByHash, List.lookup]

theorem retrieve_after_save_witness :
    SaveBlockMetadata none emptyMetadataStore (nameBytes "1234") sampleMetadata =
        ({ table := [(nameBytes "1234", sampleMetadata)], tip := some (nameBytes "1234") },
          none) ∧
      RetrieveBlockPathByHash
          { table := [(nameBytes "1234", sampleMetadata)], tip := some (nameBytes "1234") }
          (nameBytes "1234") = ("/test/testblock1.dat", none) :=
  ⟨by decide,
    retrieve_after_save none emptyMetadataStore _ (nameBytes "1234") sampleMetadata
      (by decide)⟩

theorem runSaves_cons (s s' : MetadataStore) (x : Save) (xs : List Save)
    (h : runSaves s (x :: xs) = some s') :
    ∃ s1, s.tipAdvancing x.metadata = true ∧
      SaveBlockMetadata x.engine s x.hash x.metadata = (s1, none) ∧ runSaves s1 xs = some s' := by
  unfold runSaves at h
  split_ifs at h with hadv
  split at h
  · rename_i s1 hsave
    exact ⟨s1, hadv, hsave, h⟩
  · simp at h

theorem runSaves_tip (saves : List Save) :
    ∀ (s s' : MetadataStore) (x : Save), runSaves s saves = some s' →
      saves.getLast? = some x → s'.tip = some x.hash := by
  induction saves with
  | nil =>
    intro s s' x _ hlast
    simp at hlast
  | cons y ys ih =>
    intro s s' x hrun hlast
    obtain ⟨s1, hadv, hsave, hrest⟩ := runSaves_cons s s' y ys hrun
    cases ys with
    | nil =>
      simp only [List.getLast?_singleton, Option.some.injEq] at hlast
      subst hlast
      simp only [runSaves, Option.some.injEq] at hrest
      subst hrest
      rw [SaveBlockMetadata_ok _ _ _ _ _ hsave]
      simp [hadv]
    | cons z zs =>
      rw [List.getLast?_cons_cons] at hlast
      exact ih s1 s' x hrest hlast

/-- C14: after a sequence of N >= 1 successful tip-advancing
`SaveBlockMetadata` calls with hashes h_1, ..., h_N on any store,
`lastUsedHash()` succeeds and returns h_N. -/
theorem lastUsedHash_after_saves (s s' : MetadataStore) (saves : List Save) (x : Save)
    (hrun : runSaves s saves = some s') (hlast : saves.getLast? = some x) :
    lastUsedHash s' = (.mk x.hash, none) := by
  have htip := runSaves_tip saves s s' x hrun hlast
  simp only [lastUsedHash, htip]

theorem lastUsedHash_after_saves_witness :
    runSaves emptyMetadataStore [⟨none, nameBytes "1234", sampleMetadata⟩] =
        some { table := [(nameBytes "1234", sampleMetadata)], tip := some (nameBytes "1234") } ∧
      lastUsedHash
          { table := [(nameBytes "1234", sampleMetadata)], tip := some (nameBytes "1234") } =
        (.mk (nameBytes "1234"), none) :=
  ⟨by decide,
    lastUsedHash_after_saves emptyMetadataStore _ [⟨none, nameBytes "1234", sampleMetadata⟩]
      ⟨none, nameBytes "1234", sampleMetadata⟩ (by decide) rfl⟩

/-- C15: if `SaveBlock(d, k)` succeeds and returns location `l`, then
`LoadBlock(l)` on the resulting store succeeds and returns the bytes `d`. -/
theorem load_after_save (locate : Int → String) (engine : Option GoError)
    (s s' : BlockStore) (d : List Nat) (k : Int) (l : String)
    (h : SaveBlock locate engine s d k = (s', l, none)) :
    LoadBlock s' l = (.mk d, none) := by
  unfold SaveBlock at h
  cases engine with
  | some e => simp at h
  | none =>
    simp only [Prod.mk.injEq, and_true] at h
    obtain ⟨hs, hl⟩ := h
    subst hs hl
    simp [LoadBlock, List.lookup]

theorem load_after_save_witness :
    SaveBlock sampleLocate none ⟨[]⟩ (nameBytes "Test data") 12 =
        (⟨[("test/block12.dat", nameBytes "Test data")]⟩, "test/block12.dat", none) ∧
      LoadBlock ⟨[("test/block12.dat", nameBytes "Test data")]⟩ "test/block12.dat" =
        (.mk (nameBytes "Test data"), none) :=
  ⟨by decide,
    load_after_save sampleLocate none ⟨[]⟩ _ (nameBytes "Test data") 12 "test/block12.dat"
      (by decide)⟩

end Blockchain
